import Mathlib

/-!
# streampb: length-prefixed framing of serialized messages

A shallow embedding of `streampb/stream.go`.  The encoder writes, for every
message, an 8-byte big-endian length followed by the marshalled bytes; the
decoder reads the length with `io.ReadFull` and then loops on `Read` until the
declared number of payload bytes has been stored.

The collaborators of the package are parameters of the embedding:

* the codec (`proto.Marshal` / `proto.Unmarshal`) is a `Codec M`;
* the `io.Writer` of an encoder is a `Writer τ`, a step function on a state `τ`;
* the `io.Reader` of a decoder is a `Reader σ`, a step function on a state `σ`.

Library code the package calls (`binary.BigEndian`, `io.ReadFull`,
`errors.Wrap`, `errors.Cause`) is transcribed from the Go libraries.
Loops that Go runs unboundedly take a fuel argument; `none` means the fuel ran
out before the loop ended.  The built-in `make` panics when it is asked for
more bytes than it allocates, and `binary.BigEndian.Uint64` panics on a slice
of fewer than eight bytes; `Decode` takes the limit of `make` as `maxAlloc`
and ends in `Outcome.panicked` in both cases.
-/

set_option autoImplicit false

namespace Streampb

/-- A byte, Go's `byte`. -/
abbrev Byte := Fin 256

/-- Go `error` values that are not nil.  `EOF`, `ErrUnexpectedEOF` and
`ErrShortBuffer` are the sentinels of package `io`; `other` stands for any
other transport failure, `codec` for a failure of the message codec, and
`wrapped` is what `errors.Wrap` builds around a cause. -/
inductive Error where
  | EOF : Error
  | ErrUnexpectedEOF : Error
  | ErrShortBuffer : Error
  | other (code : Nat) : Error
  | codec (code : Nat) : Error
  | wrapped (cause : Error) (message : String) : Error
  deriving DecidableEq, Repr

/-- Wrap of `github.com/pkg/errors`: nil stays nil, any other error is
annotated with the message. -/
def Wrap (err : Option Error) (message : String) : Option Error :=
  match err with
  | none => none
  | some e => some (Error.wrapped e message)

/-- Cause of `github.com/pkg/errors`: the innermost error under the
annotations. -/
def Cause : Error → Error
  | Error.wrapped e _ => Cause e
  | e => e

/-- The function `translateError` of the package. -/
def translateError (err : Error) : Error :=
  if err = Error.EOF then Error.ErrUnexpectedEOF else err

/-- The number of bytes of the big-endian length in front of every payload. -/
def prefixSize : Nat := 8

/-- The byte `byte(v >> k)` of an unsigned 64-bit value. -/
def byteAt (v k : Nat) : Byte := ⟨v / 2 ^ k % 256, Nat.mod_lt _ (by decide)⟩

/-- PutUint64 of `binary.BigEndian`: the eight bytes stored for the unsigned
64-bit value `v`, most significant first. -/
def PutUint64 (v : Nat) : List Byte :=
  [byteAt v 56, byteAt v 48, byteAt v 40, byteAt v 32,
   byteAt v 24, byteAt v 16, byteAt v 8, byteAt v 0]

/-- Uint64 of `binary.BigEndian`: the value of the first eight bytes of `b`,
most significant first; `none` stands for the run-time panic (index out of
range) on a slice of fewer than eight bytes. -/
def Uint64 (b : List Byte) : Option Nat :=
  match b with
  | b0 :: b1 :: b2 :: b3 :: b4 :: b5 :: b6 :: b7 :: _ =>
    some (b7.val + b6.val * 2 ^ 8 + b5.val * 2 ^ 16 + b4.val * 2 ^ 24 + b3.val * 2 ^ 32
      + b2.val * 2 ^ 40 + b1.val * 2 ^ 48 + b0.val * 2 ^ 56)
  | _ => none

/-- The message codec: `Marshal` is `proto.Marshal`, `Unmarshal buf v` is
`proto.Unmarshal(buf, v)` and yields the error together with the message slot
as the call leaves it. -/
structure Codec (M : Type) where
  Marshal : M → Except Error (List Byte)
  Unmarshal : List Byte → M → Option Error × M

/-- What one `Write` call returns, with the state it leaves the sink in. -/
structure WriteResult (τ : Type) where
  n : Nat
  err : Option Error
  next : τ

/-- An `io.Writer` whose state is a `τ`. -/
structure Writer (τ : Type) where
  Write : τ → List Byte → WriteResult τ

/-- What one `Read` call returns: `data` are the bytes stored at the start of
the buffer that was passed, so the count Go returns is `data.length`. -/
structure ReadResult (σ : Type) where
  data : List Byte
  err : Option Error
  next : σ

/-- An `io.Reader` whose state is a `σ`; `Read s len` is a read into a buffer
of `len` bytes. -/
structure Reader (σ : Type) where
  Read : σ → Nat → ReadResult σ

/-- The buffer `buf` after a reader stored `data` into the slice `buf[idx:]`
(a slice cannot be written past its end). -/
def writeAt (buf : List Byte) (idx : Nat) (data : List Byte) : List Byte :=
  buf.take idx ++ data.take (buf.length - idx) ++ buf.drop (idx + data.length)

/-- The encoder: the state of its writer (the scratch buffer for the length is
overwritten in full by every `Encode` before it is written out). -/
structure Encoder (τ : Type) where
  w : τ

/-- The constructor `NewEncoder`. -/
def NewEncoder {τ : Type} (w : τ) : Encoder τ := ⟨w⟩

/-- The method `Encoder.Encode`: marshal, write the length, write the bytes. -/
def Encode {M τ : Type} (codec : Codec M) (W : Writer τ) (e : Encoder τ) (msg : M) :
    Option Error × Encoder τ :=
  match codec.Marshal msg with
  | Except.error err => (some err, e)
  | Except.ok buf =>
    let r1 := W.Write e.w (PutUint64 (buf.length % 2 ^ 64))
    match r1.err with
    | some err => (Wrap (some err) "failed writing length prefix", ⟨r1.next⟩)
    | none =>
      let r2 := W.Write r1.next buf
      (Wrap r2.err "failed writing marshaled data", ⟨r2.next⟩)

/-- The state of `io.ReadAtLeast` when its loop is left. -/
structure AtLeast (σ : Type) where
  buf : List Byte
  n : Nat
  err : Option Error
  next : σ

/-- The loop of `io.ReadAtLeast`: while `n < min` and no error was returned,
read into `buf[n:]` and add the count to `n`. -/
def readAtLeastLoop {σ : Type} (R : Reader σ) (min : Nat) :
    Nat → σ → List Byte → Nat → Option (AtLeast σ)
  | 0, s, buf, n => if n < min then none else some ⟨buf, n, none, s⟩
  | fuel + 1, s, buf, n =>
    if n < min then
      let res := R.Read s (buf.length - n)
      match res.err with
      | some e => some ⟨writeAt buf n res.data, n + res.data.length, some e, res.next⟩
      | none => readAtLeastLoop R min fuel res.next (writeAt buf n res.data) (n + res.data.length)
    else some ⟨buf, n, none, s⟩

/-- ReadAtLeast of package `io`. -/
def ReadAtLeast {σ : Type} (R : Reader σ) (fuel : Nat) (s : σ) (buf : List Byte) (min : Nat) :
    Option (AtLeast σ) :=
  if buf.length < min then some ⟨buf, 0, some Error.ErrShortBuffer, s⟩
  else
    match readAtLeastLoop R min fuel s buf 0 with
    | none => none
    | some st =>
      if st.n ≥ min then some { st with err := none }
      else if st.n > 0 ∧ st.err = some Error.EOF then
        some { st with err := some Error.ErrUnexpectedEOF }
      else some st

/-- ReadFull of package `io`: `ReadAtLeast(r, buf, len(buf))`. -/
def ReadFull {σ : Type} (R : Reader σ) (fuel : Nat) (s : σ) (buf : List Byte) :
    Option (AtLeast σ) :=
  ReadAtLeast R fuel s buf buf.length

/-- The decoder: the state of its reader and the scratch buffer for the
length. -/
structure Decoder (σ : Type) where
  r : σ
  prefixBuf : List Byte

/-- The constructor `NewDecoder`. -/
def NewDecoder {σ : Type} (r : σ) : Decoder σ := ⟨r, List.replicate prefixSize 0⟩

/-- The state of the payload loop of `Decode` when it is left: the buffer, the
index, the error of the read that failed (if one did) and the reader. -/
structure Payload (σ : Type) where
  buf : List Byte
  idx : Nat
  err : Option Error
  next : σ

/-- The payload loop of `Decode`: while `idx < n`, read into `buf[idx:n]`,
leave on an error, otherwise add the count to the unsigned 64-bit `idx`. -/
def payloadLoop {σ : Type} (R : Reader σ) (n : Nat) :
    Nat → σ → List Byte → Nat → Option (Payload σ)
  | 0, s, buf, idx => if idx < n then none else some ⟨buf, idx, none, s⟩
  | fuel + 1, s, buf, idx =>
    if idx < n then
      let res := R.Read s (n - idx)
      match res.err with
      | some e => some ⟨writeAt buf idx res.data, idx, some e, res.next⟩
      | none =>
        payloadLoop R n fuel res.next (writeAt buf idx res.data)
          ((idx + res.data.length) % 2 ^ 64)
    else some ⟨buf, idx, none, s⟩

/-- What a `Decode` call leaves behind: the error it returns, the message slot
of the caller and the decoder. -/
structure Decoded (σ M : Type) where
  err : Option Error
  slot : M
  d : Decoder σ

/-- How a call ends: it returns, or a run-time panic stops it. -/
inductive Outcome (α : Type) where
  | returned (a : α) : Outcome α
  | panicked : Outcome α

/-- The largest value of Go's `int` on a 64-bit platform. -/
def maxInt : Nat := 2 ^ 63 - 1

/-- The built-in `make([]byte, n)` for an unsigned 64-bit `n`: `n` zero bytes,
or `none` for the run-time panic of `make` when `n` is more than `maxAlloc`,
the largest length `make` allocates in the run (never more than `maxInt`,
since the length of a slice is an `int`). -/
def makeBytes (maxAlloc n : Nat) : Option (List Byte) :=
  if n ≤ maxAlloc then some (List.replicate n 0) else none

/-- The method `Decoder.Decode`: read the length with `ReadFull`, take its
value with `Uint64`, make a buffer of that many bytes, read that many payload
bytes, unmarshal them into the slot `v`.  A panic of `Uint64` or of `make`
ends the call. -/
def Decode {M σ : Type} (codec : Codec M) (R : Reader σ) (maxAlloc fuel : Nat) (d : Decoder σ)
    (v : M) : Option (Outcome (Decoded σ M)) :=
  match ReadFull R fuel d.r d.prefixBuf with
  | none => none
  | some st =>
    match st.err with
    | some err => some (Outcome.returned ⟨some err, v, ⟨st.next, st.buf⟩⟩)
    | none =>
      match Uint64 st.buf with
      | none => some Outcome.panicked
      | some n =>
        match makeBytes maxAlloc n with
        | none => some Outcome.panicked
        | some buf =>
          match payloadLoop R n fuel st.next buf 0 with
          | none => none
          | some pl =>
            match pl.err with
            | some err =>
              some (Outcome.returned
                ⟨Wrap (some (translateError err)) "failed reading marshaled data", v,
                  ⟨pl.next, st.buf⟩⟩)
            | none =>
              let res := codec.Unmarshal (pl.buf.take n) v
              some (Outcome.returned ⟨res.1, res.2, ⟨pl.next, st.buf⟩⟩)

/-! ## The environment: an in-memory sink and an in-memory source -/

/-- A sink that accepts every write in full and keeps the bytes in order (the
behaviour of `bytes.Buffer.Write`). -/
def bufferWriter : Writer (List Byte) where
  Write := fun s p => ⟨p.length, none, s ++ p⟩

/-- An in-memory byte stream: the bytes not yet delivered and a schedule of
short reads.  The head of `chunks` caps the number of bytes the next read
returns (a cap of zero counts as one); once the schedule is used up a read
returns as many bytes as fit. -/
structure Source where
  data : List Byte
  chunks : List Nat
  deriving DecidableEq, Repr

/-- The number of bytes the next read of a source returns for a buffer of
`len` bytes when data is left. -/
def Source.quota (s : Source) (len : Nat) : Nat :=
  match s.chunks with
  | [] => len
  | c :: _ => Nat.min len (Nat.max c 1)

/-- The reader over a `Source`: at the end of the data it returns no byte and
`io.EOF`; before that it returns a non-empty run of the next bytes, without
error, shortened as the schedule says. -/
def sourceReader : Reader Source where
  Read := fun s len =>
    match s.data with
    | [] => ⟨[], some Error.EOF, s⟩
    | _ :: _ => ⟨s.data.take (s.quota len), none, ⟨s.data.drop (s.quota len), s.chunks.tail⟩⟩

/-- The codec whose messages are their own serialized bytes. -/
def bytesCodec : Codec (List Byte) where
  Marshal := fun m => Except.ok m
  Unmarshal := fun buf _ => (none, buf)

/-- A codec that rejects every payload whose first byte is `0xFF` with the
codec error `codec 1`, leaving the slot as it was, and otherwise behaves as
`bytesCodec`. -/
def checkedCodec : Codec (List Byte) where
  Marshal := fun m => Except.ok m
  Unmarshal := fun buf v =>
    if buf.head? = some 255 then (some (Error.codec 1), v) else (none, buf)

/-- A writer that behaves as `W` and keeps, next to the state of `W`, the
list of the byte sequences passed to `Write`, oldest first. -/
def recording {τ : Type} (W : Writer τ) : Writer (τ × List (List Byte)) where
  Write := fun s p =>
    let r := W.Write s.1 p
    ⟨r.n, r.err, (r.next, s.2 ++ [p])⟩

/-- A producer: `Encode` called on each message of a list in order, with one
encoder; the errors of the calls and the encoder at the end. -/
def EncodeAll {M τ : Type} (codec : Codec M) (W : Writer τ) :
    Encoder τ → List M → List (Option Error) × Encoder τ
  | e, [] => ([], e)
  | e, m :: ms =>
    let r := Encode codec W e m
    let rs := EncodeAll codec W r.2 ms
    (r.1 :: rs.1, rs.2)

/-- A consumer: `Decode` called `k` times with one decoder, each time with the
slot `v`; the error and the slot of every call, and the decoder at the end.
A panic of a call ends the run. -/
def DecodeTimes {M σ : Type} (codec : Codec M) (R : Reader σ) (maxAlloc fuel : Nat) :
    Nat → Decoder σ → M → Option (Outcome (List (Option Error × M) × Decoder σ))
  | 0, d, _ => some (Outcome.returned ([], d))
  | k + 1, d, v =>
    match Decode codec R maxAlloc fuel d v with
    | none => none
    | some Outcome.panicked => some Outcome.panicked
    | some (Outcome.returned r) =>
      match DecodeTimes codec R maxAlloc fuel k r.d v with
      | none => none
      | some Outcome.panicked => some Outcome.panicked
      | some (Outcome.returned rs) => some (Outcome.returned ((r.err, r.slot) :: rs.1, rs.2))

/-- The wire format of the specification: a frame is the 8-byte big-endian
length of the payload followed by the payload. -/
def Frame (p : List Byte) : List Byte := PutUint64 p.length ++ p

/-- A reader that plays a script: every read returns the next scripted bytes,
cut to the length of the buffer, together with the scripted error; after the
script it returns no byte and `io.EOF`. -/
def scriptReader : Reader (List (List Byte × Option Error)) where
  Read := fun s len =>
    match s with
    | [] => ⟨[], some Error.EOF, []⟩
    | (data, err) :: rest => ⟨data.take len, err, rest⟩

/-- A reader that behaves as `R` and keeps, next to the state of `R`, the
number of `Read` calls made so far. -/
def counting {σ : Type} (R : Reader σ) : Reader (σ × Nat) where
  Read := fun s len =>
    let r := R.Read s.1 len
    ⟨r.data, r.err, (r.next, s.2 + 1)⟩

/-- The precondition on a reader under which the read loops end: a read into
a non-empty buffer returns an error, or at least one byte and no more bytes
than the buffer holds. -/
def Progresses {σ : Type} (R : Reader σ) : Prop :=
  ∀ (s : σ) (len : Nat), 0 < len →
    (R.Read s len).err ≠ none ∨
      (1 ≤ (R.Read s len).data.length ∧ (R.Read s len).data.length ≤ len)

/-- A sink that takes at most `cap` bytes of every write and returns the count
of bytes taken without an error (a short write that is not reported as a
failure). -/
def shortWriter (cap : Nat) : Writer (List Byte) where
  Write := fun s p => ⟨Nat.min cap p.length, none, s ++ p.take cap⟩

/-- A sink with room for a fixed number of bytes; its state is the bytes it
holds and the room left.  A write that fits is taken in full; a write that
does not fit fills the room and fails with the error `other 28`. -/
def boundedWriter : Writer (List Byte × Nat) where
  Write := fun s p =>
    if p.length ≤ s.2 then ⟨p.length, none, (s.1 ++ p, s.2 - p.length)⟩
    else ⟨s.2, some (Error.other 28), (s.1 ++ p.take s.2, 0)⟩

/-- A codec whose `Marshal` fails on every message with the codec error
`codec 2`. -/
def refusingCodec : Codec (List Byte) where
  Marshal := fun _ => Except.error (Error.codec 2)
  Unmarshal := fun buf _ => (none, buf)

/-! ## Arithmetic of the length and of buffer writes -/

theorem PutUint64_length (v : Nat) : (PutUint64 v).length = prefixSize := rfl

theorem PutUint64_mod (v : Nat) : PutUint64 (v % 2 ^ 64) = PutUint64 v := by
  simp only [PutUint64, byteAt, List.cons.injEq, Fin.mk.injEq, and_true]
  refine ⟨?_, ?_, ?_, ?_, ?_, ?_, ?_, ?_⟩ <;> omega

theorem Uint64_PutUint64 (v : Nat) (h : v < 2 ^ 64) : Uint64 (PutUint64 v) = some v := by
  simp only [Uint64, PutUint64, byteAt, Option.some.injEq]
  omega

theorem Uint64_lt (b : List Byte) (n : Nat) (h : Uint64 b = some n) : n < 2 ^ 64 := by
  unfold Uint64 at h
  split at h
  · rename_i b0 b1 b2 b3 b4 b5 b6 b7 _
    have h0 := b0.isLt
    have h1 := b1.isLt
    have h2 := b2.isLt
    have h3 := b3.isLt
    have h4 := b4.isLt
    have h5 := b5.isLt
    have h6 := b6.isLt
    have h7 := b7.isLt
    simp only [Option.some.injEq] at h
    omega
  · cases h

/-- Uint64 returns on every slice of at least eight bytes. -/
theorem Uint64_isSome (b : List Byte) (h : prefixSize ≤ b.length) : ∃ n, Uint64 b = some n := by
  match b, h with
  | b0 :: b1 :: b2 :: b3 :: b4 :: b5 :: b6 :: b7 :: _, _ => exact ⟨_, rfl⟩

/-- Uint64 panics on every slice of fewer than eight bytes. -/
theorem Uint64_none (b : List Byte) (h : b.length < prefixSize) : Uint64 b = none := by
  unfold Uint64
  split
  · simp only [prefixSize, List.length_cons] at h
    omega
  · rfl

theorem writeAt_append (acc tail d : List Byte) (h : d.length ≤ tail.length) :
    writeAt (acc ++ tail) acc.length d = acc ++ d ++ tail.drop d.length := by
  simp only [writeAt, List.take_left, List.length_append, Nat.add_sub_cancel_left,
    List.take_of_length_le h, List.drop_append]

/-! ## Reads of the in-memory source -/

theorem sourceReader_read_nil (s : Source) (len : Nat) (h : s.data = []) :
    sourceReader.Read s len = ⟨[], some Error.EOF, s⟩ := by
  simp only [sourceReader, h]

theorem Source.quota_pos (s : Source) (len : Nat) (h : 0 < len) : 0 < s.quota len := by
  unfold Source.quota
  cases s.chunks with
  | nil => exact h
  | cons c _ => simp only [Nat.min_def, Nat.max_def]; split <;> split <;> omega

theorem Source.quota_le (s : Source) (len : Nat) : s.quota len ≤ len := by
  unfold Source.quota
  cases s.chunks with
  | nil => exact Nat.le_refl _
  | cons c _ => simp only [Nat.min_def]; split <;> omega

theorem sourceReader_read_cons (s : Source) (len : Nat) (h : s.data ≠ []) (hl : 0 < len) :
    ∃ k, 0 < k ∧ k ≤ len ∧ k ≤ s.data.length ∧
      sourceReader.Read s len = ⟨s.data.take k, none, ⟨s.data.drop k, s.chunks.tail⟩⟩ := by
  have hq := s.quota_pos len hl
  have hq2 := s.quota_le len
  have hlen : 0 < s.data.length := List.length_pos.mpr h
  have hread : sourceReader.Read s len
      = ⟨s.data.take (s.quota len), none, ⟨s.data.drop (s.quota len), s.chunks.tail⟩⟩ := by
    simp only [sourceReader]
    split
    · rename_i heq; exact absurd heq h
    · rfl
  by_cases hc : s.quota len ≤ s.data.length
  · exact ⟨s.quota len, hq, hq2, hc, hread⟩
  · have hc2 : s.data.length ≤ s.quota len := by omega
    refine ⟨s.data.length, hlen, by omega, Nat.le_refl _, ?_⟩
    rw [hread, List.take_of_length_le hc2, List.drop_of_length_le hc2, List.take_length,
      List.drop_length]

theorem take_append_take_drop (l : List Byte) (k m : Nat) :
    l.take k ++ (l.drop k).take m = l.take (k + m) := by
  rw [List.take_add]

/-! ## The two read loops on the in-memory source -/

/-- The loop of `ReadAtLeast` on a source that holds enough bytes: it fills
the rest `tail` of the buffer with the next bytes of the source. -/
theorem readAtLeastLoop_source_full (fuel : Nat) :
    ∀ (s : Source) (acc tail buf : List Byte) (n min : Nat),
      buf = acc ++ tail → n = acc.length → min = acc.length + tail.length →
      tail.length ≤ s.data.length → tail.length ≤ fuel →
      ∃ chunks, readAtLeastLoop sourceReader min fuel s buf n
        = some ⟨acc ++ s.data.take tail.length, min, none,
            ⟨s.data.drop tail.length, chunks⟩⟩ := by
  induction fuel with
  | zero =>
    intro s acc tail buf n min hbuf hn hmin _ hf
    have ht : tail = [] := List.length_eq_zero.mp (by omega)
    subst ht
    refine ⟨s.chunks, ?_⟩
    simp [readAtLeastLoop, hbuf, hn, hmin]
  | succ fuel ih =>
    intro s acc tail buf n min hbuf hn hmin hd hf
    by_cases ht : tail = []
    · subst ht
      refine ⟨s.chunks, ?_⟩
      simp [readAtLeastLoop, hbuf, hn, hmin]
    · have htl : 0 < tail.length := List.length_pos.mpr ht
      have hne : s.data ≠ [] := by
        intro h0; rw [h0] at hd; simp at hd; exact ht hd
      have hlt : n < min := by omega
      have hreq : buf.length - n = tail.length := by
        rw [hbuf, hn, List.length_append]; omega
      obtain ⟨k, hk0, hk1, hk2, hread⟩ := sourceReader_read_cons s tail.length hne htl
      have hdl : (s.data.take k).length = k := by
        rw [List.length_take]; omega
      have hw : writeAt buf n (s.data.take k) = (acc ++ s.data.take k) ++ tail.drop k := by
        rw [hbuf, hn, writeAt_append _ _ _ (by omega), hdl]
      obtain ⟨chunks, hih⟩ := ih ⟨s.data.drop k, s.chunks.tail⟩ (acc ++ s.data.take k)
        (tail.drop k) _ (n + k) min rfl (by simp [hn, hdl])
        (by simp [hmin, hdl]; omega) (by simp; omega) (by simp; omega)
      refine ⟨chunks, ?_⟩
      rw [readAtLeastLoop, if_pos hlt, hreq, hread]
      simp only [hdl]
      rw [hw, hih]
      have e1 : k + (tail.length - k) = tail.length := by omega
      simp [List.append_assoc, take_append_take_drop, List.drop_drop, e1]

/-- The loop of `ReadAtLeast` on a source that ends before the buffer is
full: it stores what is left and leaves with `io.EOF`. -/
theorem readAtLeastLoop_source_short (fuel : Nat) :
    ∀ (s : Source) (acc tail buf : List Byte) (n min : Nat),
      buf = acc ++ tail → n = acc.length → min = acc.length + tail.length →
      s.data.length < tail.length → s.data.length + 1 ≤ fuel →
      ∃ chunks, readAtLeastLoop sourceReader min fuel s buf n
        = some ⟨acc ++ s.data ++ tail.drop s.data.length, n + s.data.length,
            some Error.EOF, ⟨[], chunks⟩⟩ := by
  induction fuel with
  | zero => intro s acc tail buf n min _ _ _ _ hf; omega
  | succ fuel ih =>
    intro s acc tail buf n min hbuf hn hmin hd hf
    have hlt : n < min := by omega
    have hreq : buf.length - n = tail.length := by
      rw [hbuf, hn, List.length_append]; omega
    by_cases hne : s.data = []
    · refine ⟨s.chunks, ?_⟩
      rw [readAtLeastLoop, if_pos hlt, hreq, sourceReader_read_nil s _ hne]
      have hs : s = ⟨[], s.chunks⟩ := by
        cases s; simp only [Source.mk.injEq, and_true]; exact hne
      simp only [hne, List.length_nil, Nat.add_zero, List.append_nil, List.drop_zero]
      rw [hbuf, hn, writeAt_append _ _ _ (by simp)]
      simp only [List.append_nil, List.length_nil, List.drop_zero]
      rw [hs]
    · have htl : 0 < tail.length := by omega
      obtain ⟨k, hk0, hk1, hk2, hread⟩ := sourceReader_read_cons s tail.length hne htl
      have hdl : (s.data.take k).length = k := by
        rw [List.length_take]; omega
      have hw : writeAt buf n (s.data.take k) = (acc ++ s.data.take k) ++ tail.drop k := by
        rw [hbuf, hn, writeAt_append _ _ _ (by omega), hdl]
      obtain ⟨chunks, hih⟩ := ih ⟨s.data.drop k, s.chunks.tail⟩ (acc ++ s.data.take k)
        (tail.drop k) _ (n + k) min rfl (by simp [hn, hdl])
        (by simp [hmin, hdl]; omega) (by simp; omega) (by simp; omega)
      refine ⟨chunks, ?_⟩
      rw [readAtLeastLoop, if_pos hlt, hreq, hread]
      simp only [hdl]
      rw [hw, hih]
      have e1 : n + k + (s.data.length - k) = n + s.data.length := by omega
      have e2 : k + (s.data.length - k) = s.data.length := by omega
      simp [List.append_assoc, List.drop_drop, e1, e2]

/-- The payload loop of `Decode` on a source that holds the payload: it fills
the rest `tail` of the buffer with the next bytes of the source. -/
theorem payloadLoop_source_full (fuel : Nat) :
    ∀ (s : Source) (acc tail buf : List Byte) (idx n : Nat),
      buf = acc ++ tail → idx = acc.length → n = acc.length + tail.length → n < 2 ^ 64 →
      tail.length ≤ s.data.length → tail.length ≤ fuel →
      ∃ chunks, payloadLoop sourceReader n fuel s buf idx
        = some ⟨acc ++ s.data.take tail.length, n, none,
            ⟨s.data.drop tail.length, chunks⟩⟩ := by
  induction fuel with
  | zero =>
    intro s acc tail buf idx n hbuf hn hmin _ _ hf
    have ht : tail = [] := List.length_eq_zero.mp (by omega)
    subst ht
    refine ⟨s.chunks, ?_⟩
    simp [payloadLoop, hbuf, hn, hmin]
  | succ fuel ih =>
    intro s acc tail buf idx n hbuf hn hmin hn64 hd hf
    by_cases ht : tail = []
    · subst ht
      refine ⟨s.chunks, ?_⟩
      simp [payloadLoop, hbuf, hn, hmin]
    · have htl : 0 < tail.length := List.length_pos.mpr ht
      have hne : s.data ≠ [] := by
        intro h0; rw [h0] at hd; simp at hd; exact ht hd
      have hlt : idx < n := by omega
      have hreq : n - idx = tail.length := by omega
      obtain ⟨k, hk0, hk1, hk2, hread⟩ := sourceReader_read_cons s tail.length hne htl
      have hdl : (s.data.take k).length = k := by
        rw [List.length_take]; omega
      have hw : writeAt buf idx (s.data.take k) = (acc ++ s.data.take k) ++ tail.drop k := by
        rw [hbuf, hn, writeAt_append _ _ _ (by omega), hdl]
      have hmod : (idx + k) % 2 ^ 64 = idx + k := Nat.mod_eq_of_lt (by omega)
      obtain ⟨chunks, hih⟩ := ih ⟨s.data.drop k, s.chunks.tail⟩ (acc ++ s.data.take k)
        (tail.drop k) _ (idx + k) n rfl (by simp [hn, hdl])
        (by simp [hmin, hdl]; omega) hn64 (by simp; omega) (by simp; omega)
      refine ⟨chunks, ?_⟩
      rw [payloadLoop, if_pos hlt, hreq, hread]
      simp only [hdl]
      rw [hw, hmod, hih]
      have e1 : k + (tail.length - k) = tail.length := by omega
      simp [List.append_assoc, take_append_take_drop, List.drop_drop, e1]

/-- The payload loop of `Decode` on a source that ends before the payload is
complete: it leaves with the `io.EOF` of the read at the end of the data. -/
theorem payloadLoop_source_short (fuel : Nat) :
    ∀ (s : Source) (acc tail buf : List Byte) (idx n : Nat),
      buf = acc ++ tail → idx = acc.length → n = acc.length + tail.length → n < 2 ^ 64 →
      s.data.length < tail.length → s.data.length + 1 ≤ fuel →
      ∃ chunks, payloadLoop sourceReader n fuel s buf idx
        = some ⟨acc ++ s.data ++ tail.drop s.data.length, idx + s.data.length,
            some Error.EOF, ⟨[], chunks⟩⟩ := by
  induction fuel with
  | zero => intro s acc tail buf idx n _ _ _ _ _ hf; omega
  | succ fuel ih =>
    intro s acc tail buf idx n hbuf hn hmin hn64 hd hf
    have hlt : idx < n := by omega
    have hreq : n - idx = tail.length := by omega
    by_cases hne : s.data = []
    · refine ⟨s.chunks, ?_⟩
      rw [payloadLoop, if_pos hlt, hreq, sourceReader_read_nil s _ hne]
      have hs : s = ⟨[], s.chunks⟩ := by
        cases s; simp only [Source.mk.injEq, and_true]; exact hne
      simp only [hne, List.length_nil, Nat.add_zero, List.append_nil, List.drop_zero]
      rw [hbuf, hn, writeAt_append _ _ _ (by simp)]
      simp only [List.append_nil, List.length_nil, List.drop_zero]
      rw [hs]
    · have htl : 0 < tail.length := by omega
      obtain ⟨k, hk0, hk1, hk2, hread⟩ := sourceReader_read_cons s tail.length hne htl
      have hdl : (s.data.take k).length = k := by
        rw [List.length_take]; omega
      have hw : writeAt buf idx (s.data.take k) = (acc ++ s.data.take k) ++ tail.drop k := by
        rw [hbuf, hn, writeAt_append _ _ _ (by omega), hdl]
      have hmod : (idx + k) % 2 ^ 64 = idx + k := Nat.mod_eq_of_lt (by omega)
      obtain ⟨chunks, hih⟩ := ih ⟨s.data.drop k, s.chunks.tail⟩ (acc ++ s.data.take k)
        (tail.drop k) _ (idx + k) n rfl (by simp [hn, hdl])
        (by simp [hmin, hdl]; omega) hn64 (by simp; omega) (by simp; omega)
      refine ⟨chunks, ?_⟩
      rw [payloadLoop, if_pos hlt, hreq, hread]
      simp only [hdl]
      rw [hw, hmod, hih]
      have e1 : idx + k + (s.data.length - k) = idx + s.data.length := by omega
      have e2 : k + (s.data.length - k) = s.data.length := by omega
      simp [List.append_assoc, List.drop_drop, e1, e2]

/-! ## One `Decode` call on the in-memory source -/

/-- ReadFull on a source that holds at least as many bytes as the buffer:
the buffer becomes the next bytes of the source, without error. -/
theorem ReadFull_source_full (fuel : Nat) (s : Source) (buf : List Byte)
    (hd : buf.length ≤ s.data.length) (hf : buf.length ≤ fuel) :
    ∃ chunks, ReadFull sourceReader fuel s buf
      = some ⟨s.data.take buf.length, buf.length, none, ⟨s.data.drop buf.length, chunks⟩⟩ := by
  obtain ⟨chunks, h⟩ := readAtLeastLoop_source_full fuel s [] buf buf 0 buf.length rfl rfl
    (by simp) hd hf
  refine ⟨chunks, ?_⟩
  simp only [ReadFull, ReadAtLeast, Nat.lt_irrefl, if_false, h, ge_iff_le, Nat.le_refl, if_true,
    List.nil_append]

/-- ReadFull on a source that ends before the buffer is full and holds at
least one byte: `io.ErrUnexpectedEOF`. -/
theorem ReadFull_source_short (fuel : Nat) (s : Source) (buf : List Byte)
    (hd : s.data.length < buf.length) (h0 : 0 < s.data.length) (hf : s.data.length + 1 ≤ fuel) :
    ∃ chunks, ReadFull sourceReader fuel s buf
      = some ⟨s.data ++ buf.drop s.data.length, s.data.length, some Error.ErrUnexpectedEOF,
          ⟨[], chunks⟩⟩ := by
  obtain ⟨chunks, h⟩ := readAtLeastLoop_source_short fuel s [] buf buf 0 buf.length rfl rfl
    (by simp) hd hf
  refine ⟨chunks, ?_⟩
  have h1 : ¬ (buf.length ≤ s.data.length) := by omega
  simp only [ReadFull, ReadAtLeast, Nat.lt_irrefl, if_false, h, ge_iff_le, Nat.zero_add, h1,
    gt_iff_lt, h0, and_self, if_true, List.nil_append]

/-- Decode on a source whose next bytes are a complete frame: the payload of
the frame is unmarshalled and the source is left at the byte after it. -/
theorem Decode_source_frame {M : Type} (codec : Codec M) (maxAlloc fuel : Nat) (d : Decoder Source)
    (v : M) (pre payload rest : List Byte)
    (hbuf : d.prefixBuf.length = prefixSize) (hdata : d.r.data = pre ++ payload ++ rest)
    (hpre : pre.length = prefixSize) (hlen : Uint64 pre = some payload.length)
    (hmax : payload.length ≤ maxAlloc)
    (hf8 : prefixSize ≤ fuel) (hfn : payload.length ≤ fuel) :
    ∃ chunks, Decode codec sourceReader maxAlloc fuel d v
      = some (Outcome.returned ⟨(codec.Unmarshal payload v).1, (codec.Unmarshal payload v).2,
          ⟨⟨rest, chunks⟩, pre⟩⟩) := by
  obtain ⟨c1, h1⟩ := ReadFull_source_full fuel d.r d.prefixBuf
    (by rw [hdata, hbuf]; simp [hpre]) (by rw [hbuf]; exact hf8)
  have ht : d.r.data.take d.prefixBuf.length = pre := by
    rw [hdata, hbuf, ← hpre, List.append_assoc, List.take_left]
  have hdr : d.r.data.drop d.prefixBuf.length = payload ++ rest := by
    rw [hdata, hbuf, ← hpre, List.append_assoc, List.drop_left]
  rw [ht, hdr] at h1
  have h64 : payload.length < 2 ^ 64 := Uint64_lt pre _ hlen
  obtain ⟨c2, h2⟩ := payloadLoop_source_full fuel ⟨payload ++ rest, c1⟩ []
    (List.replicate payload.length 0) _ 0 payload.length rfl rfl (by simp) h64 (by simp)
    (by simp; exact hfn)
  refine ⟨c2, ?_⟩
  simp only [List.length_replicate, List.nil_append, List.take_left, List.drop_left] at h2
  simp only [Decode, h1, hlen, makeBytes, hmax, if_true, h2, List.take_length]

/-! ## Encoding onto the in-memory sink -/

/-- Encode of a marshalable message onto the in-memory sink appends the frame
of its payload and returns nil. -/
theorem Encode_buffer {M : Type} (codec : Codec M) (e : Encoder (List Byte)) (m : M)
    (p : List Byte) (hm : codec.Marshal m = Except.ok p) :
    Encode codec bufferWriter e m = (none, ⟨e.w ++ Frame p⟩) := by
  simp only [Encode, hm, bufferWriter, Wrap, PutUint64_mod, Frame, List.append_assoc]

theorem Uint64_Frame (p : List Byte) (hp : p.length < 2 ^ 64) :
    Uint64 (PutUint64 p.length) = some p.length := Uint64_PutUint64 _ hp

theorem writeAt_nil (buf : List Byte) (idx : Nat) : writeAt buf idx [] = buf := by
  simp [writeAt]

/-- Decode when the first read of the length returns no byte and `io.EOF`:
the call returns `io.EOF` itself and leaves the slot as it was. -/
theorem Decode_eof {M σ : Type} (codec : Codec M) (R : Reader σ) (maxAlloc fuel : Nat)
    (d : Decoder σ) (v : M) (hbuf : 0 < d.prefixBuf.length)
    (hdata : (R.Read d.r d.prefixBuf.length).data = [])
    (herr : (R.Read d.r d.prefixBuf.length).err = some Error.EOF) :
    Decode codec R maxAlloc (fuel + 1) d v
      = some (Outcome.returned
          ⟨some Error.EOF, v, ⟨(R.Read d.r d.prefixBuf.length).next, d.prefixBuf⟩⟩) := by
  have h1 : readAtLeastLoop R d.prefixBuf.length (fuel + 1) d.r d.prefixBuf 0
      = some ⟨d.prefixBuf, 0, some Error.EOF, (R.Read d.r d.prefixBuf.length).next⟩ := by
    rw [readAtLeastLoop, if_pos hbuf]
    simp only [Nat.sub_zero, herr, hdata, writeAt_nil, List.length_nil,
      Nat.add_zero]
  have h2 : ¬ (d.prefixBuf.length ≤ 0) := by omega
  simp only [Decode, ReadFull, ReadAtLeast, Nat.lt_irrefl, if_false, h1, ge_iff_le, h2,
    gt_iff_lt, false_and]

/-- Decode on an in-memory source with no byte left returns `io.EOF`. -/
theorem Decode_source_empty {M : Type} (codec : Codec M) (maxAlloc fuel : Nat)
    (d : Decoder Source) (v : M) (hbuf : d.prefixBuf.length = prefixSize)
    (hdata : d.r.data = []) :
    Decode codec sourceReader maxAlloc (fuel + 1) d v
      = some (Outcome.returned ⟨some Error.EOF, v, d⟩) := by
  have hr := sourceReader_read_nil d.r d.prefixBuf.length hdata
  rw [Decode_eof codec sourceReader maxAlloc fuel d v (by rw [hbuf]; decide) (by rw [hr]) (by rw [hr]), hr]

/-- Encoding a list of marshalable messages onto the in-memory sink and
decoding the bytes once more than there are messages. -/
theorem round_trip_all {M : Type} (codec : Codec M) (v : M) (maxAlloc fuel : Nat)
    (hf8 : prefixSize ≤ fuel) :
    ∀ (ms : List M) (e : Encoder (List Byte)),
      (∀ m ∈ ms, ∃ p, codec.Marshal m = Except.ok p ∧ p.length < 2 ^ 64 ∧
        p.length ≤ maxAlloc ∧ p.length ≤ fuel ∧ codec.Unmarshal p v = (none, m)) →
      ∃ bytes, EncodeAll codec bufferWriter e ms = (ms.map (fun _ => none), ⟨e.w ++ bytes⟩) ∧
        ∀ d : Decoder Source, d.prefixBuf.length = prefixSize → d.r.data = bytes →
          ∃ d2, DecodeTimes codec sourceReader maxAlloc fuel (ms.length + 1) d v
            = some (Outcome.returned
                (ms.map (fun m => (none, m)) ++ [(some Error.EOF, v)], d2)) ∧
            d2.r.data = [] := by
  intro ms
  induction ms with
  | nil =>
    intro e _
    refine ⟨[], by simp [EncodeAll], ?_⟩
    intro d hbuf hdata
    obtain ⟨f, hf⟩ : ∃ f, fuel = f + 1 := ⟨fuel - 1, by unfold prefixSize at hf8; omega⟩
    refine ⟨d, ?_, hdata⟩
    simp only [DecodeTimes, hf, Decode_source_empty codec maxAlloc f d v hbuf hdata,
      List.length_nil,
      Nat.zero_add, List.map_nil, List.nil_append]
  | cons m ms ih =>
    intro e hall
    obtain ⟨p, hm, hp, hmax, hfn, hu⟩ := hall m (List.mem_cons_self _ _)
    obtain ⟨bytes, henc, hdec⟩ := ih ⟨e.w ++ Frame p⟩
      (fun x hx => hall x (List.mem_cons_of_mem _ hx))
    refine ⟨Frame p ++ bytes, ?_, ?_⟩
    · simp only [EncodeAll, Encode_buffer codec e m p hm, henc, List.map_cons,
        List.append_assoc]
    · intro d hbuf hdata
      obtain ⟨c, h⟩ := Decode_source_frame codec maxAlloc fuel d v (PutUint64 p.length) p bytes
        hbuf (by rw [hdata, Frame]) rfl (Uint64_Frame p hp) hmax hf8 hfn
      obtain ⟨d2, hd2, hnil⟩ := hdec ⟨⟨bytes, c⟩, PutUint64 p.length⟩ rfl rfl
      refine ⟨d2, ?_, hnil⟩
      rw [List.length_cons, DecodeTimes, h]
      simp only [hd2, hu, List.map_cons, List.cons_append]

/-- A read of a source without schedule returns as many of the next bytes as
the buffer holds. -/
theorem sourceReader_read_unscheduled (data : List Byte) (len : Nat) (h : data ≠ []) :
    sourceReader.Read ⟨data, []⟩ len = ⟨data.take len, none, ⟨data.drop len, []⟩⟩ := by
  cases data with
  | nil => exact absurd rfl h
  | cons a l => rfl

/-- Decode of a complete frame from a source without schedule: one read for
the length and at most one read for the payload. -/
theorem Decode_source_single {M : Type} (codec : Codec M) (maxAlloc : Nat) (buf : List Byte)
    (v : M) (pre payload rest : List Byte) (hbuf : buf.length = prefixSize)
    (hpre : pre.length = prefixSize) (hlen : Uint64 pre = some payload.length)
    (hmax : payload.length ≤ maxAlloc) :
    Decode codec sourceReader maxAlloc 1 ⟨⟨pre ++ payload ++ rest, []⟩, buf⟩ v
      = some (Outcome.returned ⟨(codec.Unmarshal payload v).1, (codec.Unmarshal payload v).2,
          ⟨⟨rest, []⟩, pre⟩⟩) := by
  have hne : pre ++ payload ++ rest ≠ [] := by
    intro h
    have := congrArg List.length h
    simp [hpre, prefixSize] at this
  have ht : (pre ++ payload ++ rest).take prefixSize = pre := by
    rw [← hpre, List.append_assoc, List.take_left]
  have hd : (pre ++ payload ++ rest).drop prefixSize = payload ++ rest := by
    rw [← hpre, List.append_assoc, List.drop_left]
  have hw : writeAt buf 0 pre = pre := by
    have := writeAt_append [] buf pre (by rw [hbuf, hpre])
    simpa [hpre, ← hbuf] using this
  have h1 : ReadFull sourceReader 1 ⟨pre ++ payload ++ rest, []⟩ buf
      = some ⟨pre, prefixSize, none, ⟨payload ++ rest, []⟩⟩ := by
    simp only [ReadFull, ReadAtLeast, readAtLeastLoop, hbuf, Nat.lt_irrefl, if_false,
      Nat.sub_zero, sourceReader_read_unscheduled _ _ hne, ht, hd, hw, hpre, Nat.zero_add,
      ge_iff_le, Nat.le_refl, if_true]
    simp [prefixSize]
  have h64 : payload.length < 2 ^ 64 := Uint64_lt pre _ hlen
  have h2 : payloadLoop sourceReader payload.length 1 ⟨payload ++ rest, []⟩
      (List.replicate payload.length 0) 0 = some ⟨payload, payload.length, none, ⟨rest, []⟩⟩ := by
    by_cases hp : payload = []
    · subst hp
      simp [payloadLoop]
    · have hne2 : payload ++ rest ≠ [] := by simp [hp]
      have hpos : 0 < payload.length := List.length_pos.mpr hp
      have hw2 : writeAt (List.replicate payload.length 0) 0 payload = payload := by
        have := writeAt_append [] (List.replicate payload.length 0) payload (by simp)
        simpa using this
      simp only [payloadLoop, hpos, if_true, Nat.sub_zero,
        sourceReader_read_unscheduled _ _ hne2, List.take_left, List.drop_left, hw2,
        Nat.zero_add, Nat.mod_eq_of_lt h64, Nat.lt_irrefl, if_false]
  simp only [Decode, h1, hlen, makeBytes, hmax, if_true, h2, List.take_length]

/-! ## Errors and their wraps -/

/-- An error is never its own wrap. -/
theorem wrapped_ne_self (e : Error) (msg : String) : Error.wrapped e msg ≠ e := by
  intro h
  have := congrArg sizeOf h
  simp only [Error.wrapped.sizeOf_spec] at this
  omega

theorem translateError_of_ne (e : Error) (h : e ≠ Error.EOF) : translateError e = e := by
  simp [translateError, h]

/-- Decode when `ReadFull` returns an error: the error is returned as it is
and the slot is left as it was. -/
theorem Decode_prefix_error {M σ : Type} (codec : Codec M) (R : Reader σ) (maxAlloc fuel : Nat)
    (d : Decoder σ) (v : M) (st : AtLeast σ) (e : Error)
    (hst : ReadFull R fuel d.r d.prefixBuf = some st) (herr : st.err = some e) :
    Decode codec R maxAlloc fuel d v
      = some (Outcome.returned ⟨some e, v, ⟨st.next, st.buf⟩⟩) := by
  simp only [Decode, hst, herr]

/-- Decode when a payload read returns an error: the translated error is
returned in its wrap and the slot is left as it was. -/
theorem Decode_payload_error {M σ : Type} (codec : Codec M) (R : Reader σ) (maxAlloc fuel : Nat)
    (d : Decoder σ) (v : M) (st : AtLeast σ) (n : Nat) (pl : Payload σ) (e : Error)
    (hst : ReadFull R fuel d.r d.prefixBuf = some st) (herr : st.err = none)
    (hn : Uint64 st.buf = some n) (hmax : n ≤ maxAlloc)
    (hpl : payloadLoop R n fuel st.next (List.replicate n 0) 0 = some pl)
    (hpe : pl.err = some e) :
    Decode codec R maxAlloc fuel d v
      = some (Outcome.returned
          ⟨some (Error.wrapped (translateError e) "failed reading marshaled data"), v,
            ⟨pl.next, st.buf⟩⟩) := by
  simp only [Decode, hst, herr, hn, makeBytes, hmax, if_true, hpl, hpe, Wrap]

/-- Decode when the declared length is more than `make` allocates: a panic. -/
theorem Decode_panics {M σ : Type} (codec : Codec M) (R : Reader σ) (maxAlloc fuel : Nat)
    (d : Decoder σ) (v : M) (st : AtLeast σ) (n : Nat)
    (hst : ReadFull R fuel d.r d.prefixBuf = some st) (herr : st.err = none)
    (hn : Uint64 st.buf = some n) (hmax : maxAlloc < n) :
    Decode codec R maxAlloc fuel d v = some Outcome.panicked := by
  have h : ¬ (n ≤ maxAlloc) := by omega
  simp only [Decode, hst, herr, hn, makeBytes, h, if_false]

/-- Decode on a scratch buffer of fewer than eight bytes, once `ReadFull` has
filled it: `Uint64` panics. -/
theorem Decode_short_buffer {M σ : Type} (codec : Codec M) (R : Reader σ) (maxAlloc fuel : Nat)
    (d : Decoder σ) (v : M) (st : AtLeast σ)
    (hst : ReadFull R fuel d.r d.prefixBuf = some st) (herr : st.err = none)
    (hlen : st.buf.length < prefixSize) :
    Decode codec R maxAlloc fuel d v = some Outcome.panicked := by
  simp only [Decode, hst, herr, Uint64_none st.buf hlen]

/-! ## The read loops on a reader that makes progress -/

theorem writeAt_length (buf : List Byte) (idx : Nat) (data : List Byte) :
    (writeAt buf idx data).length = buf.length := by
  simp only [writeAt, List.length_append, List.length_take, List.length_drop]
  omega

theorem counting_Read {σ : Type} (R : Reader σ) (s : σ) (c len : Nat) :
    (counting R).Read (s, c) len
      = ⟨(R.Read s len).data, (R.Read s len).err, ((R.Read s len).next, c + 1)⟩ := rfl

theorem Progresses_counting {σ : Type} (R : Reader σ) (hR : Progresses R) :
    Progresses (counting R) := fun s len hlen => hR s.1 len hlen

/-- On a reader that makes progress the payload loop ends within `n - idx`
iterations, with an index of at most `n`, and of `n` when no read failed; the
buffer keeps its length. -/
theorem payloadLoop_progress {σ : Type} (R : Reader σ) (hR : Progresses R) (n : Nat)
    (hn : n < 2 ^ 64) :
    ∀ (fuel : Nat) (s : σ) (buf : List Byte) (idx : Nat), idx ≤ n → n - idx ≤ fuel →
      ∃ pl, payloadLoop R n fuel s buf idx = some pl ∧ pl.idx ≤ n ∧
        (pl.err = none → pl.idx = n) ∧ pl.buf.length = buf.length := by
  intro fuel
  induction fuel with
  | zero =>
    intro s buf idx hi hf
    have h : ¬ idx < n := by omega
    exact ⟨⟨buf, idx, none, s⟩, by simp only [payloadLoop, h, if_false], hi,
      fun _ => by simp only; omega, rfl⟩
  | succ fuel ih =>
    intro s buf idx hi hf
    by_cases h : idx < n
    · cases he : (R.Read s (n - idx)).err with
      | some e =>
        exact ⟨⟨writeAt buf idx (R.Read s (n - idx)).data, idx, some e, (R.Read s (n - idx)).next⟩,
          by simp only [payloadLoop, h, if_true, he], hi, fun h0 => by simp at h0,
          writeAt_length _ _ _⟩
      | none =>
        rcases hR s (n - idx) (by omega) with hbad | ⟨h1, h2⟩
        · exact absurd he hbad
        · have hmod : (idx + (R.Read s (n - idx)).data.length) % 2 ^ 64
              = idx + (R.Read s (n - idx)).data.length := Nat.mod_eq_of_lt (by omega)
          obtain ⟨pl, hpl, hpi, hpn, hpb⟩ := ih (R.Read s (n - idx)).next
            (writeAt buf idx (R.Read s (n - idx)).data)
            (idx + (R.Read s (n - idx)).data.length) (by omega) (by omega)
          refine ⟨pl, ?_, hpi, hpn, by rw [hpb, writeAt_length]⟩
          simp only [payloadLoop, h, if_true, he, hmod, hpl]
    · exact ⟨⟨buf, idx, none, s⟩, by simp only [payloadLoop, h, if_false], hi,
        fun _ => by simp only; omega, rfl⟩

/-- On a counting reader that makes progress the payload loop makes at most
`n - idx` reads. -/
theorem payloadLoop_counting {σ : Type} (R : Reader σ) (hR : Progresses R) (n : Nat)
    (hn : n < 2 ^ 64) :
    ∀ (fuel : Nat) (s : σ) (c : Nat) (buf : List Byte) (idx : Nat), idx ≤ n → n - idx ≤ fuel →
      ∃ pl, payloadLoop (counting R) n fuel (s, c) buf idx = some pl ∧
        pl.next.2 ≤ c + (n - idx) := by
  intro fuel
  induction fuel with
  | zero =>
    intro s c buf idx hi hf
    have h : ¬ idx < n := by omega
    exact ⟨⟨buf, idx, none, (s, c)⟩, by simp only [payloadLoop, h, if_false],
      Nat.le_add_right _ _⟩
  | succ fuel ih =>
    intro s c buf idx hi hf
    by_cases h : idx < n
    · cases he : (R.Read s (n - idx)).err with
      | some e =>
        refine ⟨⟨writeAt buf idx (R.Read s (n - idx)).data, idx, some e,
          ((R.Read s (n - idx)).next, c + 1)⟩, ?_, ?_⟩
        · simp only [payloadLoop, h, if_true, counting_Read, he]
        · simp only; omega
      | none =>
        rcases hR s (n - idx) (by omega) with hbad | ⟨h1, h2⟩
        · exact absurd he hbad
        · have hmod : (idx + (R.Read s (n - idx)).data.length) % 2 ^ 64
              = idx + (R.Read s (n - idx)).data.length := Nat.mod_eq_of_lt (by omega)
          obtain ⟨pl, hpl, hpc⟩ := ih (R.Read s (n - idx)).next (c + 1)
            (writeAt buf idx (R.Read s (n - idx)).data)
            (idx + (R.Read s (n - idx)).data.length) (by omega) (by omega)
          refine ⟨pl, ?_, by omega⟩
          simp only [payloadLoop, h, if_true, counting_Read, he, hmod, hpl]
    · exact ⟨⟨buf, idx, none, (s, c)⟩, by simp only [payloadLoop, h, if_false],
        Nat.le_add_right _ _⟩

/-- On a reader that makes progress the loop of `ReadAtLeast` ends within
`min - n` iterations when the buffer has `min` bytes. -/
theorem readAtLeastLoop_progress {σ : Type} (R : Reader σ) (hR : Progresses R) (min : Nat) :
    ∀ (fuel : Nat) (s : σ) (buf : List Byte) (n : Nat), buf.length = min → n ≤ min →
      min - n ≤ fuel → ∃ st, readAtLeastLoop R min fuel s buf n = some st := by
  intro fuel
  induction fuel with
  | zero =>
    intro s buf n _ hn hf
    have h : ¬ n < min := by omega
    exact ⟨⟨buf, n, none, s⟩, by simp only [readAtLeastLoop, h, if_false]⟩
  | succ fuel ih =>
    intro s buf n hb hn hf
    by_cases h : n < min
    · cases he : (R.Read s (buf.length - n)).err with
      | some e =>
        exact ⟨⟨writeAt buf n (R.Read s (buf.length - n)).data,
          n + (R.Read s (buf.length - n)).data.length, some e, (R.Read s (buf.length - n)).next⟩,
          by simp only [readAtLeastLoop, h, if_true, he]⟩
      | none =>
        rcases hR s (buf.length - n) (by omega) with hbad | ⟨h1, h2⟩
        · exact absurd he hbad
        · obtain ⟨st, hst⟩ := ih (R.Read s (buf.length - n)).next
            (writeAt buf n (R.Read s (buf.length - n)).data)
            (n + (R.Read s (buf.length - n)).data.length)
            (by rw [writeAt_length, hb]) (by omega) (by omega)
          exact ⟨st, by simp only [readAtLeastLoop, h, if_true, he, hst]⟩
    · exact ⟨⟨buf, n, none, s⟩, by simp only [readAtLeastLoop, h, if_false]⟩

/-- On a reader that makes progress `ReadFull` ends within as many
iterations as the buffer has bytes. -/
theorem ReadFull_progress {σ : Type} (R : Reader σ) (hR : Progresses R) (fuel : Nat) (s : σ)
    (buf : List Byte) (hf : buf.length ≤ fuel) : ∃ st, ReadFull R fuel s buf = some st := by
  obtain ⟨st, hst⟩ := readAtLeastLoop_progress R hR buf.length fuel s buf 0 rfl (Nat.zero_le _)
    (by omega)
  simp only [ReadFull, ReadAtLeast, Nat.lt_irrefl, if_false, hst]
  split
  · exact ⟨_, rfl⟩
  · split
    · exact ⟨_, rfl⟩
    · exact ⟨_, rfl⟩

/-- The in-memory source makes progress. -/
theorem Progresses_sourceReader : Progresses sourceReader := by
  intro s len hlen
  by_cases h : s.data = []
  · left
    rw [sourceReader_read_nil s len h]
    simp
  · right
    obtain ⟨k, hk0, hk1, hk2, hread⟩ := sourceReader_read_cons s len h hlen
    rw [hread]
    simp only [List.length_take]
    omega

/-! ## The sink with bounded room -/

theorem boundedWriter_grow (t : List Byte × Nat) (q : List Byte) :
    (boundedWriter.Write t q).next.1 = t.1 ++ q.take (boundedWriter.Write t q).n := by
  simp only [boundedWriter]
  split <;> simp

theorem boundedWriter_full (t : List Byte × Nat) (q : List Byte)
    (h : (boundedWriter.Write t q).err = none) : (boundedWriter.Write t q).n = q.length := by
  simp only [boundedWriter] at h ⊢
  split
  · rfl
  · rename_i hlt
    simp [hlt] at h

/-! ## The length of the scratch buffer -/

theorem readAtLeastLoop_length {σ : Type} (R : Reader σ) (min : Nat) :
    ∀ (fuel : Nat) (s : σ) (buf : List Byte) (n : Nat) (st : AtLeast σ),
      readAtLeastLoop R min fuel s buf n = some st → st.buf.length = buf.length := by
  intro fuel
  induction fuel with
  | zero =>
    intro s buf n st h
    simp only [readAtLeastLoop] at h
    split at h
    · cases h
    · cases h; rfl
  | succ fuel ih =>
    intro s buf n st h
    simp only [readAtLeastLoop] at h
    split at h
    · split at h
      · cases h
        exact writeAt_length _ _ _
      · rw [ih _ _ _ _ h, writeAt_length]
    · cases h; rfl

/-- ReadFull leaves the buffer with the length it had. -/
theorem ReadFull_length {σ : Type} (R : Reader σ) (fuel : Nat) (s : σ) (buf : List Byte)
    (st : AtLeast σ) (h : ReadFull R fuel s buf = some st) : st.buf.length = buf.length := by
  simp only [ReadFull, ReadAtLeast, Nat.lt_irrefl, if_false] at h
  cases hl : readAtLeastLoop R buf.length fuel s buf 0 with
  | none => simp [hl] at h
  | some st0 =>
    have h0 := readAtLeastLoop_length R buf.length fuel s buf 0 st0 hl
    simp only [hl] at h
    split at h
    · cases h; exact h0
    · split at h
      · cases h; exact h0
      · cases h; exact h0

/-- After `ReadFull` on the scratch buffer of a decoder made by `NewDecoder`,
`Uint64` returns. -/
theorem Uint64_after_ReadFull {σ : Type} (R : Reader σ) (fuel : Nat) (s : σ) (buf : List Byte)
    (st : AtLeast σ) (hbuf : buf.length = prefixSize) (h : ReadFull R fuel s buf = some st) :
    ∃ n, Uint64 st.buf = some n :=
  Uint64_isSome st.buf (by rw [ReadFull_length R fuel s buf st h, hbuf])

/-- Decode on a source whose next bytes are a length that `make` does not
allocate: the call panics, whatever follows the length. -/
theorem Decode_source_panics {M : Type} (codec : Codec M) (maxAlloc fuel : Nat)
    (d : Decoder Source) (v : M) (pre rest : List Byte) (n : Nat)
    (hbuf : d.prefixBuf.length = prefixSize) (hdata : d.r.data = pre ++ rest)
    (hpre : pre.length = prefixSize) (hn : Uint64 pre = some n) (hmax : maxAlloc < n)
    (hf8 : prefixSize ≤ fuel) :
    Decode codec sourceReader maxAlloc fuel d v = some Outcome.panicked := by
  obtain ⟨c1, h1⟩ := ReadFull_source_full fuel d.r d.prefixBuf
    (by rw [hdata, hbuf]; simp [hpre]) (by rw [hbuf]; exact hf8)
  have ht : d.r.data.take d.prefixBuf.length = pre := by
    rw [hdata, hbuf, ← hpre, List.take_left]
  rw [ht] at h1
  exact Decode_panics codec sourceReader maxAlloc fuel d v _ n h1 rfl hn hmax

/-! ## Properties of the specification -/

/-- C1 (round trip).  A message `m` that marshals to `p` (a Go slice, so
shorter than `2 ^ 64` and of a length `make` allocates) is encoded onto the
empty in-memory sink without error; decoding the bytes written, however the
source splits them into reads, calls the deserializer on exactly `p`, so that
with `Unmarshal p` reproducing `m` the call returns nil, leaves `m` in the
slot and leaves the source empty. -/
theorem C1_round_trip {M : Type} (codec : Codec M) (m v : M) (p : List Byte)
    (chunks : List Nat) (maxAlloc fuel : Nat)
    (hm : codec.Marshal m = Except.ok p) (hp : p.length < 2 ^ 64)
    (hu : codec.Unmarshal p v = (none, m)) (hmax : p.length ≤ maxAlloc)
    (hf8 : prefixSize ≤ fuel) (hfn : p.length ≤ fuel) :
    (Encode codec bufferWriter (NewEncoder []) m).1 = none ∧
    ∃ chunks2,
      Decode codec sourceReader maxAlloc fuel
          (NewDecoder ⟨(Encode codec bufferWriter (NewEncoder []) m).2.w, chunks⟩) v
        = some (Outcome.returned ⟨(codec.Unmarshal p v).1, (codec.Unmarshal p v).2,
            ⟨⟨[], chunks2⟩, PutUint64 p.length⟩⟩) ∧
      (codec.Unmarshal p v).1 = none ∧ (codec.Unmarshal p v).2 = m := by
  rw [Encode_buffer codec _ m p hm]
  refine ⟨rfl, ?_⟩
  obtain ⟨c, h⟩ := Decode_source_frame codec maxAlloc fuel
    (NewDecoder ⟨(NewEncoder ([] : List Byte)).w ++ Frame p, chunks⟩) v (PutUint64 p.length) p []
    rfl (by simp [NewDecoder, NewEncoder, Frame]) rfl (Uint64_Frame p hp) hmax hf8 hfn
  exact ⟨c, h, by rw [hu], by rw [hu]⟩

/-- C1 at the message `[1, 2, 3]` of the byte codec, read one and two bytes
at a time. -/
theorem C1_round_trip_witness :
    bytesCodec.Marshal [1, 2, 3] = Except.ok [1, 2, 3] ∧
    (Encode bytesCodec bufferWriter (NewEncoder []) [1, 2, 3]).1 = none ∧
    ∃ chunks2,
      Decode bytesCodec sourceReader maxInt 8
          (NewDecoder ⟨(Encode bytesCodec bufferWriter (NewEncoder []) [1, 2, 3]).2.w, [1, 2]⟩) []
        = some (Outcome.returned ⟨(bytesCodec.Unmarshal [1, 2, 3] []).1, (bytesCodec.Unmarshal [1, 2, 3] []).2,
            ⟨⟨[], chunks2⟩, PutUint64 3⟩⟩) ∧
      (bytesCodec.Unmarshal [1, 2, 3] []).1 = none ∧
      (bytesCodec.Unmarshal [1, 2, 3] []).2 = [1, 2, 3] :=
  ⟨rfl, C1_round_trip bytesCodec [1, 2, 3] [] [1, 2, 3] [1, 2] maxInt 8 rfl (by decide) rfl
    (by decide) (by decide) (by decide)⟩

/-- C2 (multi-frame round trip).  Messages `m1 .. mk` (any `k`, zero included)
that marshal (to Go slices, of a length `make` allocates) are encoded in order by one encoder onto the empty in-memory sink,
every call returning nil; `k + 1` calls of `Decode` by one decoder on the bytes
written, however the source splits them into reads, return nil with `m1 .. mk`
in the slot, in that order, and the last call returns `io.EOF` itself. -/
theorem C2_multi_frame_round_trip {M : Type} (codec : Codec M) (ms : List M) (v : M)
    (chunks : List Nat) (maxAlloc fuel : Nat)
    (hall : ∀ m ∈ ms, ∃ p, codec.Marshal m = Except.ok p ∧ p.length < 2 ^ 64 ∧
      p.length ≤ maxAlloc ∧ p.length ≤ fuel ∧ codec.Unmarshal p v = (none, m))
    (hf8 : prefixSize ≤ fuel) :
    (EncodeAll codec bufferWriter (NewEncoder []) ms).1 = ms.map (fun _ => none) ∧
    ∃ d2,
      DecodeTimes codec sourceReader maxAlloc fuel (ms.length + 1)
          (NewDecoder ⟨(EncodeAll codec bufferWriter (NewEncoder []) ms).2.w, chunks⟩) v
        = some (Outcome.returned (ms.map (fun m => (none, m)) ++ [(some Error.EOF, v)], d2)) := by
  obtain ⟨bytes, henc, hdec⟩ := round_trip_all codec v maxAlloc fuel hf8 ms (NewEncoder []) hall
  rw [henc]
  refine ⟨rfl, ?_⟩
  obtain ⟨d2, h, _⟩ := hdec (NewDecoder ⟨(NewEncoder ([] : List Byte)).w ++ bytes, chunks⟩) rfl
    (by simp [NewDecoder, NewEncoder])
  exact ⟨d2, h⟩

/-- C2 at the three messages `[1]`, `[]`, `[2, 3]` of the byte codec, read one
byte at a time at first. -/
theorem C2_multi_frame_round_trip_witness :
    (EncodeAll bytesCodec bufferWriter (NewEncoder []) [[1], [], [2, 3]]).1
      = [none, none, none] ∧
    ∃ d2,
      DecodeTimes bytesCodec sourceReader maxInt 8 4
          (NewDecoder
            ⟨(EncodeAll bytesCodec bufferWriter (NewEncoder []) [[1], [], [2, 3]]).2.w,
              [1, 1, 1]⟩) []
        = some (Outcome.returned ([(none, [1]), (none, []), (none, [2, 3]), (some Error.EOF, [])], d2)) :=
  C2_multi_frame_round_trip bytesCodec [[1], [], [2, 3]] [] [1, 1, 1] maxInt 8
    (fun m hm => ⟨m, rfl, by
      simp only [List.mem_cons, List.mem_singleton, List.not_mem_nil, or_false] at hm
      rcases hm with rfl | rfl | rfl <;> decide, by
      simp only [List.mem_cons, List.mem_singleton, List.not_mem_nil, or_false] at hm
      rcases hm with rfl | rfl | rfl <;> decide, by
      simp only [List.mem_cons, List.mem_singleton, List.not_mem_nil, or_false] at hm
      rcases hm with rfl | rfl | rfl <;> decide, rfl⟩)
    (by decide)

/-- C3 (wire format of Encode).  For a message that marshals to `p`, `Encode`
on the in-memory sink returns nil and appends exactly the eight bytes of the
big-endian length of `p` followed by `p`; the eight bytes decode to
`len(p)`; and on any sink, when `Encode` returns nil the byte sequences passed
to `Write` were exactly the length and then `p`, in that order. -/
theorem C3_wire_format {M τ : Type} (codec : Codec M) (W : Writer τ) (m : M) (p : List Byte)
    (sink : List Byte) (s : τ) (log : List (List Byte))
    (hm : codec.Marshal m = Except.ok p) (hp : p.length < 2 ^ 64) :
    Encode codec bufferWriter ⟨sink⟩ m = (none, ⟨sink ++ PutUint64 p.length ++ p⟩) ∧
    (PutUint64 p.length).length = 8 ∧ Uint64 (PutUint64 p.length) = some p.length ∧
    ((Encode codec (recording W) ⟨(s, log)⟩ m).1 = none →
      (Encode codec (recording W) ⟨(s, log)⟩ m).2.w.2 = log ++ [PutUint64 p.length, p]) := by
  refine ⟨?_, rfl, Uint64_PutUint64 _ hp, ?_⟩
  · rw [Encode_buffer codec _ m p hm, Frame, List.append_assoc]
  · simp only [Encode, hm, recording, PutUint64_mod]
    cases h1 : (W.Write s (PutUint64 p.length)).err with
    | some e => simp [Wrap]
    | none => simp

/-- C3 at the message `[7, 9]` of the byte codec. -/
theorem C3_wire_format_witness :
    Encode bytesCodec bufferWriter ⟨[5]⟩ [7, 9]
      = (none, ⟨[5] ++ PutUint64 2 ++ [7, 9]⟩) ∧
    (PutUint64 2).length = 8 ∧ Uint64 (PutUint64 2) = some 2 ∧
    ((Encode bytesCodec (recording bufferWriter) ⟨([], [])⟩ [7, 9]).1 = none →
      (Encode bytesCodec (recording bufferWriter) ⟨([], [])⟩ [7, 9]).2.w.2
        = [] ++ [PutUint64 2, [7, 9]]) :=
  C3_wire_format bytesCodec bufferWriter [7, 9] [7, 9] [5] [] [] rfl (by decide)

/-- C4 (exact consumption by Decode), amended.  When the next bytes of the
source are eight bytes of big-endian value `n`, a length `make` allocates,
followed by at least `n` bytes, `Decode` passes exactly the `n` bytes after
the length to the deserializer, returns what the deserializer returns (an
error as well as nil), and leaves the source at the first byte after the
payload: exactly `8 + n` bytes are consumed. -/
theorem C4_exact_consumption {M : Type} (codec : Codec M) (maxAlloc fuel : Nat) (d : Decoder Source)
    (v : M) (pre payload rest : List Byte)
    (hbuf : d.prefixBuf.length = prefixSize) (hdata : d.r.data = pre ++ payload ++ rest)
    (hpre : pre.length = prefixSize) (hlen : Uint64 pre = some payload.length)
    (hmax : payload.length ≤ maxAlloc)
    (hf8 : prefixSize ≤ fuel) (hfn : payload.length ≤ fuel) :
    ∃ res, Decode codec sourceReader maxAlloc fuel d v = some (Outcome.returned res) ∧
      (res.err, res.slot) = codec.Unmarshal payload v ∧
      res.d.r.data = rest ∧ res.d.r.data.length + (8 + payload.length) = d.r.data.length := by
  obtain ⟨c, h⟩ := Decode_source_frame codec maxAlloc fuel d v pre payload rest hbuf hdata hpre
    hlen hmax hf8 hfn
  refine ⟨_, h, rfl, rfl, ?_⟩
  simp only [hdata, List.length_append, hpre, prefixSize]
  omega

/-- C4 at a frame of two bytes followed by the start of another frame, with a
payload the codec accepts and with one it rejects. -/
theorem C4_exact_consumption_witness :
    (∃ res, Decode checkedCodec sourceReader maxInt 8 (NewDecoder ⟨PutUint64 2 ++ [7, 9] ++ [0, 0], [1]⟩)
        [] = some (Outcome.returned res) ∧
      (res.err, res.slot) = checkedCodec.Unmarshal [7, 9] [] ∧
      res.d.r.data = [0, 0] ∧
      res.d.r.data.length + (8 + [7, 9].length)
        = (NewDecoder (⟨PutUint64 2 ++ [7, 9] ++ [0, 0], [1]⟩ : Source)).r.data.length) ∧
    checkedCodec.Unmarshal [255, 9] [] = (some (Error.codec 1), []) ∧
    (∃ res, Decode checkedCodec sourceReader maxInt 8
        (NewDecoder ⟨PutUint64 2 ++ [255, 9] ++ [0, 0], [1]⟩) [] = some (Outcome.returned res) ∧
      (res.err, res.slot) = checkedCodec.Unmarshal [255, 9] [] ∧
      res.d.r.data = [0, 0] ∧
      res.d.r.data.length + (8 + [255, 9].length)
        = (NewDecoder (⟨PutUint64 2 ++ [255, 9] ++ [0, 0], [1]⟩ : Source)).r.data.length) :=
  ⟨C4_exact_consumption checkedCodec maxInt 8
      (NewDecoder ⟨PutUint64 2 ++ [7, 9] ++ [0, 0], [1]⟩) [] (PutUint64 2) [7, 9] [0, 0] rfl rfl
      rfl (by decide) (by decide) (by decide) (by decide),
    by decide,
    C4_exact_consumption checkedCodec maxInt 8
      (NewDecoder ⟨PutUint64 2 ++ [255, 9] ++ [0, 0], [1]⟩) [] (PutUint64 2) [255, 9] [0, 0] rfl
      rfl rfl (by decide) (by decide) (by decide) (by decide)⟩

/-- C4 as stated fails: on the stream of the eight bytes `80 00 00 00 00 00 00
00` (a declared length of `2 ^ 63`) followed by `2 ^ 63` further bytes,
`Decode` passes nothing to the deserializer and does not return: `make`
panics, even when it allocates every length an `int` can hold. -/
theorem C4_exact_consumption_counterexample :
    Uint64 [128, 0, 0, 0, 0, 0, 0, 0] = some (2 ^ 63) ∧
    (List.replicate (2 ^ 63) (0 : Byte)).length = 2 ^ 63 ∧
    Decode bytesCodec sourceReader maxInt 8
        (NewDecoder ⟨[128, 0, 0, 0, 0, 0, 0, 0] ++ List.replicate (2 ^ 63) 0, []⟩) [9]
      = some Outcome.panicked :=
  ⟨by decide, List.length_replicate _ _,
    Decode_source_panics bytesCodec maxInt 8
      (NewDecoder ⟨[128, 0, 0, 0, 0, 0, 0, 0] ++ List.replicate (2 ^ 63) 0, []⟩) [9]
      [128, 0, 0, 0, 0, 0, 0, 0] (List.replicate (2 ^ 63) 0) (2 ^ 63) rfl rfl rfl (by decide)
      (by decide) (by decide)⟩

/-- C5 (clean end of stream).  When the first read of the length returns no
byte and `io.EOF`, `Decode` returns `io.EOF` itself, not wrapped and not
`io.ErrUnexpectedEOF`, and the slot is as it was, whatever the codec; in
particular on an in-memory source with no byte at all. -/
theorem C5_clean_end_of_stream {M σ : Type} (codec : Codec M) (R : Reader σ) (maxAlloc fuel : Nat)
    (d : Decoder σ) (v : M) (chunks : List Nat)
    (hbuf : d.prefixBuf.length = prefixSize)
    (hdata : (R.Read d.r prefixSize).data = [])
    (herr : (R.Read d.r prefixSize).err = some Error.EOF) :
    Decode codec R maxAlloc (fuel + 1) d v
      = some (Outcome.returned ⟨some Error.EOF, v, ⟨(R.Read d.r prefixSize).next, d.prefixBuf⟩⟩) ∧
    Decode codec sourceReader maxAlloc (fuel + 1) (NewDecoder ⟨[], chunks⟩) v
      = some (Outcome.returned ⟨some Error.EOF, v, NewDecoder ⟨[], chunks⟩⟩) ∧
    Error.EOF ≠ Error.ErrUnexpectedEOF := by
  refine ⟨?_, Decode_source_empty codec maxAlloc fuel _ v rfl rfl, by decide⟩
  have h := Decode_eof codec R maxAlloc fuel d v (by rw [hbuf]; decide) (by rw [hbuf]; exact hdata)
    (by rw [hbuf]; exact herr)
  rw [hbuf] at h
  exact h

/-- C5 at the in-memory source without bytes and a codec that would change
the slot if it were called. -/
theorem C5_clean_end_of_stream_witness :
    (sourceReader.Read (NewDecoder (⟨[], [3]⟩ : Source)).r prefixSize).data = [] ∧
    Decode bytesCodec sourceReader maxInt (0 + 1) (NewDecoder ⟨[], [3]⟩) [4, 2]
      = some (Outcome.returned ⟨some Error.EOF, [4, 2],
          ⟨(sourceReader.Read (NewDecoder (⟨[], [3]⟩ : Source)).r prefixSize).next,
            (NewDecoder (⟨[], [3]⟩ : Source)).prefixBuf⟩⟩) ∧
    Decode bytesCodec sourceReader maxInt (0 + 1) (NewDecoder ⟨[], []⟩) [4, 2]
      = some (Outcome.returned ⟨some Error.EOF, [4, 2], NewDecoder ⟨[], []⟩⟩) ∧
    Error.EOF ≠ Error.ErrUnexpectedEOF :=
  ⟨rfl, C5_clean_end_of_stream bytesCodec sourceReader maxInt 0 (NewDecoder ⟨[], [3]⟩) [4, 2]
    [] rfl rfl rfl⟩

/-- C6 (truncated prefix).  On a stream that holds between one and seven
bytes and then ends, `Decode` returns `io.ErrUnexpectedEOF`, not `io.EOF`,
and leaves the slot as it was. -/
theorem C6_truncated_prefix {M : Type} (codec : Codec M) (maxAlloc fuel : Nat) (d : Decoder Source)
    (v : M) (hbuf : d.prefixBuf.length = prefixSize)
    (h1 : 1 ≤ d.r.data.length) (h7 : d.r.data.length ≤ 7) (hf : prefixSize ≤ fuel) :
    ∃ res, Decode codec sourceReader maxAlloc fuel d v = some (Outcome.returned res) ∧
      res.err = some Error.ErrUnexpectedEOF ∧ res.err ≠ some Error.EOF ∧ res.slot = v ∧
      res.d.r.data = [] := by
  unfold prefixSize at hf
  obtain ⟨c, h⟩ := ReadFull_source_short fuel d.r d.prefixBuf
    (by rw [hbuf]; unfold prefixSize; omega) (by omega) (by omega)
  have hD : Decode codec sourceReader maxAlloc fuel d v
      = some (Outcome.returned ⟨some Error.ErrUnexpectedEOF, v,
          ⟨⟨[], c⟩, d.r.data ++ d.prefixBuf.drop d.r.data.length⟩⟩) := by
    simp only [Decode, h]
  exact ⟨_, hD, rfl, by simp, rfl, rfl⟩

/-- C6 at the stream of the three bytes `1, 2, 3`. -/
theorem C6_truncated_prefix_witness :
    ∃ res, Decode bytesCodec sourceReader maxInt 8 (NewDecoder ⟨[1, 2, 3], []⟩) [9] = some (Outcome.returned res) ∧
      res.err = some Error.ErrUnexpectedEOF ∧ res.err ≠ some Error.EOF ∧ res.slot = [9] ∧
      res.d.r.data = [] :=
  C6_truncated_prefix bytesCodec maxInt 8 (NewDecoder ⟨[1, 2, 3], []⟩) [9] rfl (by decide)
    (by decide) (by decide)

/-- C7 (truncated payload), amended.  On a stream that holds a complete length
of value `n`, a length `make` can allocate, followed by fewer than `n` bytes
and then ends, `Decode` returns `io.ErrUnexpectedEOF` wrapped with "failed
reading marshaled data": the cause is `io.ErrUnexpectedEOF`, the error is
neither `io.EOF` nor nil, and the slot is as it was, whatever the codec. -/
theorem C7_truncated_payload {M : Type} (codec : Codec M) (maxAlloc fuel : Nat) (d : Decoder Source)
    (v : M) (pre part : List Byte)
    (hbuf : d.prefixBuf.length = prefixSize) (hdata : d.r.data = pre ++ part)
    (n : Nat) (hpre : pre.length = prefixSize) (hn : Uint64 pre = some n)
    (hlt : part.length < n) (hmax : n ≤ maxAlloc)
    (hf8 : prefixSize ≤ fuel) (hfn : part.length + 1 ≤ fuel) :
    ∃ res, Decode codec sourceReader maxAlloc fuel d v = some (Outcome.returned res) ∧
      res.err = some (Error.wrapped Error.ErrUnexpectedEOF "failed reading marshaled data") ∧
      (∀ e, res.err = some e → Cause e = Error.ErrUnexpectedEOF) ∧
      res.err ≠ some Error.EOF ∧ res.err ≠ none ∧ res.slot = v := by
  obtain ⟨c1, h1⟩ := ReadFull_source_full fuel d.r d.prefixBuf
    (by rw [hdata, hbuf]; simp [hpre]) (by rw [hbuf]; exact hf8)
  have ht : d.r.data.take d.prefixBuf.length = pre := by
    rw [hdata, hbuf, ← hpre, List.take_left]
  have hdr : d.r.data.drop d.prefixBuf.length = part := by
    rw [hdata, hbuf, ← hpre, List.drop_left]
  rw [ht, hdr] at h1
  obtain ⟨c2, h2⟩ := payloadLoop_source_short fuel ⟨part, c1⟩ []
    (List.replicate n 0) _ 0 n rfl rfl (by simp) (Uint64_lt pre n hn)
    (by simp; exact hlt) hfn
  simp only [List.nil_append, Nat.zero_add] at h2
  have hD : Decode codec sourceReader maxAlloc fuel d v
      = some (Outcome.returned
          ⟨some (Error.wrapped Error.ErrUnexpectedEOF "failed reading marshaled data"), v,
            ⟨⟨[], c2⟩, pre⟩⟩) := by
    simp only [Decode, h1, hn, makeBytes, hmax, h2, Wrap, translateError, if_true]
  refine ⟨_, hD, rfl, ?_, by simp, by simp, rfl⟩
  intro e he
  simp only [Option.some.injEq] at he
  rw [← he]
  rfl

/-- C7 at a length of four followed by two bytes. -/
theorem C7_truncated_payload_witness :
    ∃ res, Decode bytesCodec sourceReader maxInt 8 (NewDecoder ⟨PutUint64 4 ++ [1, 2], []⟩) [9]
        = some (Outcome.returned res) ∧
      res.err = some (Error.wrapped Error.ErrUnexpectedEOF "failed reading marshaled data") ∧
      (∀ e, res.err = some e → Cause e = Error.ErrUnexpectedEOF) ∧
      res.err ≠ some Error.EOF ∧ res.err ≠ none ∧ res.slot = [9] :=
  C7_truncated_payload bytesCodec maxInt 8 (NewDecoder ⟨PutUint64 4 ++ [1, 2], []⟩) [9]
    (PutUint64 4) [1, 2] rfl rfl 4 rfl rfl (by decide) (by decide) (by decide) (by decide)

/-- C7 as stated fails: on the stream of the eight bytes `80 00 00 00 00 00 00
00` (a declared length of `2 ^ 63`) followed by two bytes, `Decode` does not
return an error: `make` panics, whatever the allocation limit of the run. -/
theorem C7_truncated_payload_counterexample :
    Uint64 [128, 0, 0, 0, 0, 0, 0, 0] = some (2 ^ 63) ∧
    Decode bytesCodec sourceReader maxInt 8
        (NewDecoder ⟨[128, 0, 0, 0, 0, 0, 0, 0] ++ [1, 2], []⟩) [9]
      = some Outcome.panicked ∧
    ¬ ∃ res, Decode bytesCodec sourceReader maxInt 8
        (NewDecoder ⟨[128, 0, 0, 0, 0, 0, 0, 0] ++ [1, 2], []⟩) [9]
      = some (Outcome.returned res) := by
  have h : Decode bytesCodec sourceReader maxInt 8
      (NewDecoder ⟨[128, 0, 0, 0, 0, 0, 0, 0] ++ [1, 2], []⟩) [9] = some Outcome.panicked :=
    rfl
  refine ⟨by decide, h, ?_⟩
  rintro ⟨res, hres⟩
  rw [h] at hres
  cases hres

/-- C8 (short-read resilience), amended.  For a frame of payload `p`, of a
length `make` allocates, and any schedule of short reads of the source, one
byte per read included, `Decode` ends as it does on the source that returns
all requested bytes in a single read (for which one unit of fuel is enough):
the deserializer is called on exactly `p`, its result is returned, and the
source is left at the byte after the frame. -/
theorem C8_short_read_resilience {M : Type} (codec : Codec M) (maxAlloc fuel : Nat) (buf : List Byte)
    (v : M) (pre p rest : List Byte) (chunks : List Nat)
    (hbuf : buf.length = prefixSize) (hpre : pre.length = prefixSize)
    (hlen : Uint64 pre = some p.length) (hmax : p.length ≤ maxAlloc)
    (hf8 : prefixSize ≤ fuel) (hfn : p.length ≤ fuel) :
    ∃ c,
      Decode codec sourceReader maxAlloc fuel ⟨⟨pre ++ p ++ rest, chunks⟩, buf⟩ v
        = some (Outcome.returned ⟨(codec.Unmarshal p v).1, (codec.Unmarshal p v).2, ⟨⟨rest, c⟩, pre⟩⟩) ∧
      Decode codec sourceReader maxAlloc 1 ⟨⟨pre ++ p ++ rest, []⟩, buf⟩ v
        = some (Outcome.returned ⟨(codec.Unmarshal p v).1, (codec.Unmarshal p v).2, ⟨⟨rest, []⟩, pre⟩⟩) := by
  obtain ⟨c, h⟩ := Decode_source_frame codec maxAlloc fuel ⟨⟨pre ++ p ++ rest, chunks⟩, buf⟩ v
    pre p rest hbuf rfl hpre hlen hmax hf8 hfn
  exact ⟨c, h, Decode_source_single codec maxAlloc buf v pre p rest hbuf hpre hlen hmax⟩

/-- C8 at a frame of three bytes delivered one byte per read. -/
theorem C8_short_read_resilience_witness :
    ∃ c,
      Decode bytesCodec sourceReader maxInt 8
          ⟨⟨PutUint64 3 ++ [7, 9, 4] ++ [], [1, 1, 1, 1, 1, 1, 1, 1, 1, 1, 1]⟩,
            List.replicate 8 0⟩ []
        = some (Outcome.returned ⟨(bytesCodec.Unmarshal [7, 9, 4] []).1, (bytesCodec.Unmarshal [7, 9, 4] []).2,
            ⟨⟨[], c⟩, PutUint64 3⟩⟩) ∧
      Decode bytesCodec sourceReader maxInt 1 ⟨⟨PutUint64 3 ++ [7, 9, 4] ++ [], []⟩, List.replicate 8 0⟩ []
        = some (Outcome.returned ⟨(bytesCodec.Unmarshal [7, 9, 4] []).1, (bytesCodec.Unmarshal [7, 9, 4] []).2,
            ⟨⟨[], []⟩, PutUint64 3⟩⟩) :=
  C8_short_read_resilience bytesCodec maxInt 8 (List.replicate 8 0) [] (PutUint64 3) [7, 9, 4]
    [] [1, 1, 1, 1, 1, 1, 1, 1, 1, 1, 1] rfl rfl (by decide) (by decide) (by decide) (by decide)

/-- C8 as stated fails: for the frame whose length is `2 ^ 63`, with its
`2 ^ 63` payload bytes, the deserializer is not invoked, whether the source
returns one byte per read or all requested bytes at once: `make` panics, even
when it allocates every length an `int` can hold. -/
theorem C8_short_read_resilience_counterexample :
    Uint64 [128, 0, 0, 0, 0, 0, 0, 0] = some (2 ^ 63) ∧
    (List.replicate (2 ^ 63) (0 : Byte)).length = 2 ^ 63 ∧
    Decode bytesCodec sourceReader maxInt 8
        ⟨⟨[128, 0, 0, 0, 0, 0, 0, 0] ++ List.replicate (2 ^ 63) 0, [1, 1, 1, 1, 1, 1, 1, 1, 1]⟩,
          List.replicate 8 0⟩ [9]
      = some Outcome.panicked ∧
    Decode bytesCodec sourceReader maxInt 8
        ⟨⟨[128, 0, 0, 0, 0, 0, 0, 0] ++ List.replicate (2 ^ 63) 0, []⟩, List.replicate 8 0⟩ [9]
      = some Outcome.panicked :=
  ⟨by decide, List.length_replicate _ _,
    Decode_source_panics bytesCodec maxInt 8
      ⟨⟨[128, 0, 0, 0, 0, 0, 0, 0] ++ List.replicate (2 ^ 63) 0, [1, 1, 1, 1, 1, 1, 1, 1, 1]⟩,
        List.replicate 8 0⟩ [9]
      [128, 0, 0, 0, 0, 0, 0, 0] (List.replicate (2 ^ 63) 0) (2 ^ 63) rfl rfl rfl (by decide)
      (by decide) (by decide),
    Decode_source_panics bytesCodec maxInt 8
      ⟨⟨[128, 0, 0, 0, 0, 0, 0, 0] ++ List.replicate (2 ^ 63) 0, []⟩, List.replicate 8 0⟩ [9]
      [128, 0, 0, 0, 0, 0, 0, 0] (List.replicate (2 ^ 63) 0) (2 ^ 63) rfl rfl rfl (by decide)
      (by decide) (by decide)⟩

/-- C9 (zero-length payload).  A message that marshals to no byte is encoded
as exactly eight zero bytes.  When `ReadFull` has stored eight zero bytes as
the length, `Decode` calls the deserializer on the empty byte sequence and
returns its result, with the reader in the state `ReadFull` left it in: no
payload read takes place.  So it is on the in-memory source that holds the
eight zero bytes and nothing after them. -/
theorem C9_zero_length_payload {M σ : Type} (codec : Codec M) (R : Reader σ) (maxAlloc fuel : Nat)
    (d : Decoder σ) (st : AtLeast σ) (m v : M) (sink : List Byte) (chunks : List Nat)
    (hm : codec.Marshal m = Except.ok [])
    (hst : ReadFull R fuel d.r d.prefixBuf = some st) (herr : st.err = none)
    (hzero : st.buf = List.replicate 8 0) (hf8 : prefixSize ≤ fuel) :
    Encode codec bufferWriter ⟨sink⟩ m = (none, ⟨sink ++ List.replicate 8 0⟩) ∧
    Decode codec R maxAlloc fuel d v
      = some (Outcome.returned ⟨(codec.Unmarshal [] v).1, (codec.Unmarshal [] v).2, ⟨st.next, st.buf⟩⟩) ∧
    ∃ c, Decode codec sourceReader maxAlloc fuel (NewDecoder ⟨List.replicate 8 0, chunks⟩) v
      = some (Outcome.returned ⟨(codec.Unmarshal [] v).1, (codec.Unmarshal [] v).2,
          ⟨⟨[], c⟩, List.replicate 8 0⟩⟩) := by
  refine ⟨?_, ?_, ?_⟩
  · rw [Encode_buffer codec _ m [] hm]
    rfl
  · have hu : Uint64 (List.replicate 8 0) = some 0 := by decide
    cases fuel with
    | zero => simp only [Decode, hst, herr, hzero, hu, makeBytes, Nat.zero_le, if_true,
        payloadLoop, Nat.lt_irrefl, if_false, List.replicate_zero, List.take_nil]
    | succ f => simp only [Decode, hst, herr, hzero, hu, makeBytes, Nat.zero_le, if_true,
        payloadLoop, Nat.lt_irrefl, if_false, List.replicate_zero, List.take_nil]
  · exact Decode_source_frame codec maxAlloc fuel (NewDecoder ⟨List.replicate 8 0, chunks⟩) v
      (List.replicate 8 0) [] [] rfl rfl rfl (by decide) (Nat.zero_le _) hf8 (Nat.zero_le _)

/-- C9 at the empty message of the byte codec. -/
theorem C9_zero_length_payload_witness :
    Encode bytesCodec bufferWriter ⟨[1]⟩ [] = (none, ⟨[1] ++ List.replicate 8 0⟩) ∧
    Decode bytesCodec sourceReader maxInt 8 (NewDecoder ⟨List.replicate 8 0, []⟩) [5]
      = some (Outcome.returned ⟨(bytesCodec.Unmarshal [] [5]).1, (bytesCodec.Unmarshal [] [5]).2,
          ⟨(⟨[], []⟩ : Source), List.replicate 8 0⟩⟩) ∧
    ∃ c, Decode bytesCodec sourceReader maxInt 8 (NewDecoder ⟨List.replicate 8 0, [2]⟩) [5]
      = some (Outcome.returned ⟨(bytesCodec.Unmarshal [] [5]).1, (bytesCodec.Unmarshal [] [5]).2,
          ⟨⟨[], c⟩, List.replicate 8 0⟩⟩) :=
  C9_zero_length_payload bytesCodec sourceReader maxInt 8 (NewDecoder ⟨List.replicate 8 0, []⟩)
    ⟨List.replicate 8 0, 8, none, ⟨[], []⟩⟩ [] [5] [1] [2] rfl rfl rfl rfl (by decide)

/-- C10 (a corrupted payload does not stall the stream), amended.  On a stream
of a frame whose payload the deserializer rejects with error `e`, followed by
a second frame, both of a length `make` allocates, the first `Decode` returns
`e` itself and leaves the source at the second frame; the next `Decode` of the
same decoder passes the payload of the second frame to the deserializer and
leaves the source after it. -/
theorem C10_corrupted_payload {M : Type} (codec : Codec M) (maxAlloc fuel : Nat) (d : Decoder Source)
    (v v1 v2 : M) (e : Error) (pre1 p1 pre2 p2 rest : List Byte)
    (hbuf : d.prefixBuf.length = prefixSize)
    (hdata : d.r.data = pre1 ++ p1 ++ (pre2 ++ p2 ++ rest))
    (hpre1 : pre1.length = prefixSize) (hlen1 : Uint64 pre1 = some p1.length)
    (hpre2 : pre2.length = prefixSize) (hlen2 : Uint64 pre2 = some p2.length)
    (hrej : codec.Unmarshal p1 v = (some e, v1))
    (hmax1 : p1.length ≤ maxAlloc) (hmax2 : p2.length ≤ maxAlloc)
    (hf8 : prefixSize ≤ fuel) (hfn1 : p1.length ≤ fuel) (hfn2 : p2.length ≤ fuel) :
    ∃ r1, Decode codec sourceReader maxAlloc fuel d v = some (Outcome.returned r1) ∧
      r1.err = some e ∧ r1.slot = v1 ∧ r1.d.r.data = pre2 ++ p2 ++ rest ∧
      ∃ r2, Decode codec sourceReader maxAlloc fuel r1.d v2 = some (Outcome.returned r2) ∧
        (r2.err, r2.slot) = codec.Unmarshal p2 v2 ∧ r2.d.r.data = rest := by
  obtain ⟨c1, h1⟩ := Decode_source_frame codec maxAlloc fuel d v pre1 p1 (pre2 ++ p2 ++ rest)
    hbuf hdata hpre1 hlen1 hmax1 hf8 hfn1
  obtain ⟨c2, h2⟩ := Decode_source_frame codec maxAlloc fuel ⟨⟨pre2 ++ p2 ++ rest, c1⟩, pre1⟩ v2
    pre2 p2 rest hpre1 rfl hpre2 hlen2 hmax2 hf8 hfn2
  refine ⟨_, h1, by rw [hrej], by rw [hrej], rfl, _, h2, rfl, rfl⟩

/-- C10 at a frame the checked codec rejects followed by one it accepts. -/
theorem C10_corrupted_payload_witness :
    checkedCodec.Unmarshal [255, 1] [] = (some (Error.codec 1), []) ∧
    ∃ r1, Decode checkedCodec sourceReader maxInt 8
        (NewDecoder ⟨PutUint64 2 ++ [255, 1] ++ (PutUint64 1 ++ [6] ++ []), []⟩) [] = some (Outcome.returned r1) ∧
      r1.err = some (Error.codec 1) ∧ r1.slot = [] ∧ r1.d.r.data = PutUint64 1 ++ [6] ++ [] ∧
      ∃ r2, Decode checkedCodec sourceReader maxInt 8 r1.d [] = some (Outcome.returned r2) ∧
        (r2.err, r2.slot) = checkedCodec.Unmarshal [6] [] ∧ r2.d.r.data = [] :=
  ⟨by decide, C10_corrupted_payload checkedCodec maxInt 8
    (NewDecoder ⟨PutUint64 2 ++ [255, 1] ++ (PutUint64 1 ++ [6] ++ []), []⟩) [] [] []
    (Error.codec 1) (PutUint64 2) [255, 1] (PutUint64 1) [6] [] rfl rfl rfl (by decide) rfl
    (by decide) (by decide) (by decide) (by decide) (by decide) (by decide) (by decide)⟩

/-- C10 as stated fails: on the stream of a frame the deserializer rejects
followed by the frame whose length is `2 ^ 63`, with its `2 ^ 63` payload
bytes, the first `Decode` returns the error of the deserializer and the second
`Decode` passes nothing to the deserializer: `make` panics, even when it
allocates every length an `int` can hold. -/
theorem C10_corrupted_payload_counterexample :
    Uint64 [128, 0, 0, 0, 0, 0, 0, 0] = some (2 ^ 63) ∧
    (List.replicate (2 ^ 63) (0 : Byte)).length = 2 ^ 63 ∧
    ∃ r1, Decode checkedCodec sourceReader maxInt 8
        (NewDecoder ⟨PutUint64 2 ++ [255, 1]
          ++ ([128, 0, 0, 0, 0, 0, 0, 0] ++ List.replicate (2 ^ 63) 0), []⟩) []
        = some (Outcome.returned r1) ∧
      r1.err = some (Error.codec 1) ∧
      Decode checkedCodec sourceReader maxInt 8 r1.d [] = some Outcome.panicked := by
  obtain ⟨c, h⟩ := Decode_source_frame checkedCodec maxInt 8
    (NewDecoder ⟨PutUint64 2 ++ [255, 1]
      ++ ([128, 0, 0, 0, 0, 0, 0, 0] ++ List.replicate (2 ^ 63) 0), []⟩) []
    (PutUint64 2) [255, 1] ([128, 0, 0, 0, 0, 0, 0, 0] ++ List.replicate (2 ^ 63) 0) rfl rfl rfl
    (by decide) (by decide) (by decide) (by decide)
  exact ⟨by decide, List.length_replicate _ _, _, h, rfl,
    Decode_source_panics checkedCodec maxInt 8 _ [] [128, 0, 0, 0, 0, 0, 0, 0]
      (List.replicate (2 ^ 63) 0) (2 ^ 63) rfl rfl rfl (by decide) (by decide) (by decide)⟩

/-- C11 (success means a complete frame), amended.  On a sink that receives
the first `n` bytes of a write returning the count `n`, and that returns the
full count whenever it returns no error (the contract of `io.Writer`), a nil
result of `Encode` means the sink has received the eight bytes of the length
followed by the whole payload. -/
theorem C11_success_complete_frame {M τ : Type} (codec : Codec M) (W : Writer τ)
    (contents : τ → List Byte) (e : Encoder τ) (m : M) (p : List Byte)
    (hgrow : ∀ s q, contents (W.Write s q).next = contents s ++ q.take (W.Write s q).n)
    (hfull : ∀ s q, (W.Write s q).err = none → (W.Write s q).n = q.length)
    (hm : codec.Marshal m = Except.ok p) (hok : (Encode codec W e m).1 = none) :
    contents (Encode codec W e m).2.w = contents e.w ++ PutUint64 p.length ++ p := by
  simp only [Encode, hm, PutUint64_mod] at hok ⊢
  cases h1 : (W.Write e.w (PutUint64 p.length)).err with
  | some err => simp [h1, Wrap] at hok
  | none =>
    simp only [h1] at hok ⊢
    cases h2 : (W.Write (W.Write e.w (PutUint64 p.length)).next p).err with
    | some err => simp [h2, Wrap] at hok
    | none =>
      rw [hgrow, hgrow, hfull _ _ h1, hfull _ _ h2, List.take_length, List.take_length]

/-- C11, amended, at the in-memory sink and the message `[1, 2, 3]`. -/
theorem C11_success_complete_frame_witness :
    (Encode bytesCodec bufferWriter ⟨[5]⟩ [1, 2, 3]).1 = none ∧
    (Encode bytesCodec bufferWriter ⟨[5]⟩ [1, 2, 3]).2.w = [5] ++ PutUint64 3 ++ [1, 2, 3] :=
  ⟨rfl, C11_success_complete_frame bytesCodec bufferWriter id ⟨[5]⟩ [1, 2, 3] [1, 2, 3]
    (fun s q => by simp [bufferWriter]) (fun _ _ _ => rfl) rfl rfl⟩

/-- C11 as stated fails: the sink that takes four bytes of every write and
returns the count four without an error receives the first `n` bytes of every
write returning `n`, yet `Encode` of the message `[1, 2, 3]` returns nil when
the sink holds only four of the eight bytes of the length. -/
theorem C11_success_complete_frame_counterexample :
    (∀ s q, ((shortWriter 4).Write s q).next = s ++ q.take ((shortWriter 4).Write s q).n ∧
      ((shortWriter 4).Write s q).n ≤ q.length) ∧
    (Encode bytesCodec (shortWriter 4) ⟨[]⟩ [1, 2, 3]).1 = none ∧
    (Encode bytesCodec (shortWriter 4) ⟨[]⟩ [1, 2, 3]).2.w = [0, 0, 0, 0, 1, 2, 3] ∧
    (Encode bytesCodec (shortWriter 4) ⟨[]⟩ [1, 2, 3]).2.w ≠ [] ++ PutUint64 3 ++ [1, 2, 3] := by
  refine ⟨?_, rfl, by decide, by decide⟩
  intro s q
  simp only [shortWriter, Nat.min_def]
  split
  · rename_i h
    exact ⟨rfl, h⟩
  · rename_i h
    exact ⟨by rw [List.take_of_length_le (by omega : q.length ≤ 4), List.take_length],
      Nat.le_refl _⟩

/-- C12 (a serialization failure is passed through).  When `Marshal` fails
with error `err`, `Encode` returns `err` itself and the encoder as it was, on
every sink; on a sink that records its writes no write has been recorded. -/
theorem C12_marshal_failure {M τ : Type} (codec : Codec M) (W : Writer τ) (e : Encoder τ)
    (s : τ) (log : List (List Byte)) (m : M) (err : Error)
    (hm : codec.Marshal m = Except.error err) :
    Encode codec W e m = (some err, e) ∧
    Encode codec (recording W) ⟨(s, log)⟩ m = (some err, ⟨(s, log)⟩) := by
  simp only [Encode, hm, and_self]

/-- C12 at the codec that refuses every message. -/
theorem C12_marshal_failure_witness :
    Encode refusingCodec boundedWriter ⟨([4], 9)⟩ [1, 2] = (some (Error.codec 2), ⟨([4], 9)⟩) ∧
    Encode refusingCodec (recording boundedWriter) ⟨(([4], 9), [])⟩ [1, 2]
      = (some (Error.codec 2), ⟨(([4], 9), [])⟩) :=
  C12_marshal_failure refusingCodec boundedWriter ⟨([4], 9)⟩ ([4], 9) [] [1, 2] (Error.codec 2)
    rfl

/-- C13 (write failures are distinctly reported).  For a message that
marshals to `p`: when the write of the length fails with `err`, `Encode`
returns `err` wrapped with "failed writing length prefix"; when that write
succeeds and the write of the payload fails with `err`, `Encode` returns `err`
wrapped with "failed writing marshaled data"; the two wraps of one error
differ and have the cause of that error; and `Encode` returns nil exactly when
`Marshal` and both writes succeed. -/
theorem C13_write_failures {M τ : Type} (codec : Codec M) (W : Writer τ) (e : Encoder τ)
    (m : M) (p : List Byte) (hm : codec.Marshal m = Except.ok p) :
    (∀ err, (W.Write e.w (PutUint64 p.length)).err = some err →
      (Encode codec W e m).1 = some (Error.wrapped err "failed writing length prefix")) ∧
    (∀ err, (W.Write e.w (PutUint64 p.length)).err = none →
      (W.Write (W.Write e.w (PutUint64 p.length)).next p).err = some err →
      (Encode codec W e m).1 = some (Error.wrapped err "failed writing marshaled data")) ∧
    (∀ err, Error.wrapped err "failed writing length prefix"
        ≠ Error.wrapped err "failed writing marshaled data" ∧
      Cause (Error.wrapped err "failed writing length prefix") = Cause err ∧
      Cause (Error.wrapped err "failed writing marshaled data") = Cause err) ∧
    (∀ m2, (Encode codec W e m2).1 = none ↔
      ∃ q, codec.Marshal m2 = Except.ok q ∧ (W.Write e.w (PutUint64 q.length)).err = none ∧
        (W.Write (W.Write e.w (PutUint64 q.length)).next q).err = none) := by
  refine ⟨?_, ?_, ?_, ?_⟩
  · intro err h1
    simp only [Encode, hm, PutUint64_mod, h1, Wrap]
  · intro err h1 h2
    simp only [Encode, hm, PutUint64_mod, h1, h2, Wrap]
  · intro err
    exact ⟨by simp, rfl, rfl⟩
  · intro m2
    cases hm2 : codec.Marshal m2 with
    | error err => simp [Encode, hm2]
    | ok q =>
      simp only [Encode, hm2, PutUint64_mod]
      cases h1 : (W.Write e.w (PutUint64 q.length)).err with
      | some err => simp [Wrap, h1]
      | none =>
        cases h2 : (W.Write (W.Write e.w (PutUint64 q.length)).next q).err with
        | some err => simp [Wrap, h1, h2]
        | none => simp [Wrap, h1, h2]

/-- C13 at the sink with room for eight bytes and the message `[1, 2]`: the
length is taken, the payload is not. -/
theorem C13_write_failures_witness :
    (∀ err, (boundedWriter.Write (⟨([], 8)⟩ : Encoder (List Byte × Nat)).w
        (PutUint64 [1, 2].length)).err = some err →
      (Encode bytesCodec boundedWriter ⟨([], 8)⟩ [1, 2]).1
        = some (Error.wrapped err "failed writing length prefix")) ∧
    (∀ err, (boundedWriter.Write (⟨([], 8)⟩ : Encoder (List Byte × Nat)).w
        (PutUint64 [1, 2].length)).err = none →
      (boundedWriter.Write (boundedWriter.Write (⟨([], 8)⟩ : Encoder (List Byte × Nat)).w
        (PutUint64 [1, 2].length)).next [1, 2]).err = some err →
      (Encode bytesCodec boundedWriter ⟨([], 8)⟩ [1, 2]).1
        = some (Error.wrapped err "failed writing marshaled data")) ∧
    (∀ err, Error.wrapped err "failed writing length prefix"
        ≠ Error.wrapped err "failed writing marshaled data" ∧
      Cause (Error.wrapped err "failed writing length prefix") = Cause err ∧
      Cause (Error.wrapped err "failed writing marshaled data") = Cause err) ∧
    (∀ m2, (Encode bytesCodec boundedWriter ⟨([], 8)⟩ m2).1 = none ↔
      ∃ q, bytesCodec.Marshal m2 = Except.ok q ∧
        (boundedWriter.Write (⟨([], 8)⟩ : Encoder (List Byte × Nat)).w
          (PutUint64 q.length)).err = none ∧
        (boundedWriter.Write (boundedWriter.Write (⟨([], 8)⟩ : Encoder (List Byte × Nat)).w
          (PutUint64 q.length)).next q).err = none) ∧
    (Encode bytesCodec boundedWriter ⟨([], 8)⟩ [1, 2]).1
      = some (Error.wrapped (Error.other 28) "failed writing marshaled data") ∧
    (Encode bytesCodec boundedWriter ⟨([], 3)⟩ [1, 2]).1
      = some (Error.wrapped (Error.other 28) "failed writing length prefix") :=
  ⟨(C13_write_failures bytesCodec boundedWriter ⟨([], 8)⟩ [1, 2] [1, 2] rfl).1,
    (C13_write_failures bytesCodec boundedWriter ⟨([], 8)⟩ [1, 2] [1, 2] rfl).2.1,
    (C13_write_failures bytesCodec boundedWriter ⟨([], 8)⟩ [1, 2] [1, 2] rfl).2.2.1,
    (C13_write_failures bytesCodec boundedWriter ⟨([], 8)⟩ [1, 2] [1, 2] rfl).2.2.2,
    rfl, rfl⟩

/-- C14 (prefix read failures), amended.  When a read of the length returns an
error `e` other than `io.EOF` before eight bytes are stored, `Decode` returns
`e` itself, without a wrap and without context, and leaves the slot as it
was; this differs from what `Decode` returns for the same `e` from a payload
read, which is `e` wrapped with "failed reading marshaled data". -/
theorem C14_prefix_read_failure {M σ : Type} (codec : Codec M) (R : Reader σ)
    (maxAlloc fuel : Nat) (d : Decoder σ) (v : M) (st : AtLeast σ) (e : Error)
    (hbuf : d.prefixBuf.length = prefixSize)
    (hst : readAtLeastLoop R prefixSize fuel d.r d.prefixBuf 0 = some st)
    (hn : st.n < prefixSize) (herr : st.err = some e) (hne : e ≠ Error.EOF) :
    Decode codec R maxAlloc fuel d v = some (Outcome.returned ⟨some e, v, ⟨st.next, st.buf⟩⟩) ∧
    some e ≠ Wrap (some (translateError e)) "failed reading marshaled data" := by
  have h1 : ¬ (prefixSize ≤ st.n) := by omega
  have h2 : ¬ (0 < st.n ∧ st.err = some Error.EOF) := by
    rw [herr]
    intro h
    exact hne (Option.some.inj h.2)
  have hrf : ReadFull R fuel d.r d.prefixBuf = some st := by
    simp only [ReadFull, ReadAtLeast, hbuf, Nat.lt_irrefl, if_false, hst, ge_iff_le, h1,
      gt_iff_lt, h2]
  refine ⟨Decode_prefix_error codec R maxAlloc fuel d v st e hrf herr, ?_⟩
  rw [translateError_of_ne e hne]
  simp only [Wrap, ne_eq, Option.some.injEq]
  exact fun h => wrapped_ne_self e _ h.symm

/-- C14, amended, at a source whose first read fails with `other 5` after
three bytes. -/
theorem C14_prefix_read_failure_witness :
    Decode bytesCodec scriptReader maxInt 8 (NewDecoder [([1, 2, 3], some (Error.other 5))]) [9]
      = some (Outcome.returned
          ⟨some (Error.other 5), [9], ⟨[], [1, 2, 3, 0, 0, 0, 0, 0]⟩⟩) ∧
    some (Error.other 5)
      ≠ Wrap (some (translateError (Error.other 5))) "failed reading marshaled data" :=
  C14_prefix_read_failure bytesCodec scriptReader maxInt 8
    (NewDecoder [([1, 2, 3], some (Error.other 5))]) [9]
    ⟨[1, 2, 3, 0, 0, 0, 0, 0], 3, some (Error.other 5), []⟩ (Error.other 5) rfl rfl
    (by decide) rfl (by decide)

/-- C14 as stated fails: when the first read of the length fails with the
error `other 5`, `Decode` returns `other 5` itself, which is no wrap of
anything and carries no context. -/
theorem C14_prefix_read_failure_counterexample :
    Decode bytesCodec scriptReader maxInt 8 (NewDecoder [([], some (Error.other 5))]) [9]
      = some (Outcome.returned ⟨some (Error.other 5), [9], ⟨[], List.replicate 8 0⟩⟩) ∧
    ∀ (cause : Error) (msg : String), Error.other 5 ≠ Error.wrapped cause msg :=
  ⟨rfl, fun _ _ h => Error.noConfusion h⟩

/-- C15 (payload read failures).  For a decoder with its scratch buffer of
eight bytes: when a payload read returns an error `e` other than `io.EOF`,
`Decode` returns `e` wrapped with "failed reading marshaled data" and leaves
the slot as it was; `translateError` leaves every error other than `io.EOF` as
it is and maps `io.EOF` to `io.ErrUnexpectedEOF`; the cause of the wrap is the
cause of `e`, which is `e` when `e` is no wrap. -/
theorem C15_payload_read_failure {M σ : Type} (codec : Codec M) (R : Reader σ)
    (maxAlloc fuel : Nat) (d : Decoder σ) (v : M) (st : AtLeast σ) (n : Nat) (pl : Payload σ)
    (e : Error) (hbuf : d.prefixBuf.length = prefixSize)
    (hst : ReadFull R fuel d.r d.prefixBuf = some st) (herr : st.err = none)
    (hn : Uint64 st.buf = some n) (hmax : n ≤ maxAlloc)
    (hpl : payloadLoop R n fuel st.next (List.replicate n 0) 0 = some pl)
    (hpe : pl.err = some e) (hne : e ≠ Error.EOF) :
    st.buf.length = prefixSize ∧
    Decode codec R maxAlloc fuel d v
      = some (Outcome.returned
          ⟨some (Error.wrapped e "failed reading marshaled data"), v, ⟨pl.next, st.buf⟩⟩) ∧
    (∀ x, x ≠ Error.EOF → translateError x = x) ∧
    translateError Error.EOF = Error.ErrUnexpectedEOF ∧
    Cause (Error.wrapped e "failed reading marshaled data") = Cause e ∧
    ((∀ c msg, e ≠ Error.wrapped c msg) →
      Cause (Error.wrapped e "failed reading marshaled data") = e) := by
  have h := Decode_payload_error codec R maxAlloc fuel d v st n pl e hst herr hn hmax hpl hpe
  rw [translateError_of_ne e hne] at h
  refine ⟨by rw [ReadFull_length R fuel d.r d.prefixBuf st hst, hbuf], h, translateError_of_ne,
    rfl, rfl, ?_⟩
  intro hplain
  cases e with
  | wrapped c msg => exact absurd rfl (hplain c msg)
  | EOF => rfl
  | ErrUnexpectedEOF => rfl
  | ErrShortBuffer => rfl
  | other code => rfl
  | codec code => rfl

/-- C15 at a source that delivers a length of four, two payload bytes and then
fails with `other 5`. -/
theorem C15_payload_read_failure_witness :
    (PutUint64 4).length = prefixSize ∧
    Decode bytesCodec scriptReader maxInt 8
        (NewDecoder [(PutUint64 4, none), ([1, 2], none), ([], some (Error.other 5))]) [9]
      = some (Outcome.returned
          ⟨some (Error.wrapped (Error.other 5) "failed reading marshaled data"), [9],
            ⟨[], PutUint64 4⟩⟩) ∧
    (∀ x, x ≠ Error.EOF → translateError x = x) ∧
    translateError Error.EOF = Error.ErrUnexpectedEOF ∧
    Cause (Error.wrapped (Error.other 5) "failed reading marshaled data")
      = Cause (Error.other 5) ∧
    ((∀ c msg, Error.other 5 ≠ Error.wrapped c msg) →
      Cause (Error.wrapped (Error.other 5) "failed reading marshaled data") = Error.other 5) :=
  C15_payload_read_failure bytesCodec scriptReader maxInt 8
    (NewDecoder [(PutUint64 4, none), ([1, 2], none), ([], some (Error.other 5))]) [9]
    ⟨PutUint64 4, 8, none, [([1, 2], none), ([], some (Error.other 5))]⟩ 4
    ⟨[1, 2, 0, 0], 2, some (Error.other 5), []⟩ (Error.other 5) rfl rfl rfl rfl (by decide) rfl
    rfl (by decide)

/-- C16 (a failed read leaves the message slot untouched).  For a decoder with
its scratch buffer of eight bytes and whatever the codec: when `ReadFull`
returns an error (`io.EOF` at a clean end, a truncated length, an I/O error),
`Decode` returns it with the slot as it was; when `ReadFull` returns no error
the length is read without a panic, and when a payload read then returns an
error (a truncated payload, an I/O error), `Decode` returns its wrap with the
slot as it was; and a `Decode` that returns with another slot than it was
given has read the whole frame without error and returns what the
deserializer returned. -/
theorem C16_failed_read_keeps_slot {M σ : Type} (codec : Codec M) (R : Reader σ)
    (maxAlloc fuel : Nat) (d : Decoder σ) (v : M) (st : AtLeast σ)
    (hbuf : d.prefixBuf.length = prefixSize)
    (hst : ReadFull R fuel d.r d.prefixBuf = some st) :
    (∀ e, st.err = some e →
      Decode codec R maxAlloc fuel d v
        = some (Outcome.returned ⟨some e, v, ⟨st.next, st.buf⟩⟩)) ∧
    (∃ n, Uint64 st.buf = some n ∧
      ∀ pl e, st.err = none → n ≤ maxAlloc →
        payloadLoop R n fuel st.next (List.replicate n 0) 0 = some pl →
        pl.err = some e →
        Decode codec R maxAlloc fuel d v
          = some (Outcome.returned
              ⟨some (Error.wrapped (translateError e) "failed reading marshaled data"), v,
                ⟨pl.next, st.buf⟩⟩)) ∧
    (∀ res, Decode codec R maxAlloc fuel d v = some (Outcome.returned res) → res.slot ≠ v →
      st.err = none ∧
      ∃ n pl, Uint64 st.buf = some n ∧
        payloadLoop R n fuel st.next (List.replicate n 0) 0 = some pl ∧
        pl.err = none ∧
        (res.err, res.slot) = codec.Unmarshal (pl.buf.take n) v) := by
  obtain ⟨n, hn⟩ := Uint64_after_ReadFull R fuel d.r d.prefixBuf st hbuf hst
  refine ⟨fun e he => Decode_prefix_error codec R maxAlloc fuel d v st e hst he,
    ⟨n, hn, fun pl e he hmax hpl hpe =>
      Decode_payload_error codec R maxAlloc fuel d v st n pl e hst he hn hmax hpl hpe⟩, ?_⟩
  intro res hres hslot
  simp only [Decode, hst, hn, makeBytes] at hres
  cases he : st.err with
  | some e =>
    simp only [he, Option.some.injEq, Outcome.returned.injEq] at hres
    exact absurd (by rw [← hres]) hslot
  | none =>
    simp only [he] at hres
    refine ⟨rfl, ?_⟩
    by_cases hmax : n ≤ maxAlloc
    · simp only [hmax, if_true] at hres
      cases hpl : payloadLoop R n fuel st.next (List.replicate n 0) 0 with
      | none => simp [hpl] at hres
      | some pl =>
        simp only [hpl] at hres
        cases hpe : pl.err with
        | some e =>
          simp only [hpe, Option.some.injEq, Outcome.returned.injEq] at hres
          exact absurd (by rw [← hres]) hslot
        | none =>
          simp only [hpe, Option.some.injEq, Outcome.returned.injEq] at hres
          exact ⟨n, pl, hn, hpl, hpe, by rw [← hres]⟩
    · simp [hmax] at hres

/-- C16 at a stream that ends after three bytes of the length, and at the
four kinds of failed read, with a codec that would change the slot. -/
theorem C16_failed_read_keeps_slot_witness :
    (∀ e, (⟨[1, 2, 3, 0, 0, 0, 0, 0], 3, some Error.ErrUnexpectedEOF, ⟨[], []⟩⟩
        : AtLeast Source).err = some e →
      Decode bytesCodec sourceReader maxInt 8 (NewDecoder ⟨[1, 2, 3], []⟩) [9]
        = some (Outcome.returned ⟨some e, [9], ⟨⟨[], []⟩, [1, 2, 3, 0, 0, 0, 0, 0]⟩⟩)) ∧
    Decode bytesCodec sourceReader maxInt 8 (NewDecoder ⟨[], []⟩) [9]
      = some (Outcome.returned ⟨some Error.EOF, [9], NewDecoder ⟨[], []⟩⟩) ∧
    Decode bytesCodec sourceReader maxInt 8 (NewDecoder ⟨PutUint64 4 ++ [1, 2], []⟩) [9]
      = some (Outcome.returned
          ⟨some (Error.wrapped Error.ErrUnexpectedEOF "failed reading marshaled data"), [9],
            ⟨⟨[], []⟩, PutUint64 4⟩⟩) ∧
    Decode bytesCodec scriptReader maxInt 8 (NewDecoder [([1], some (Error.other 5))]) [9]
      = some (Outcome.returned ⟨some (Error.other 5), [9], ⟨[], [1, 0, 0, 0, 0, 0, 0, 0]⟩⟩) ∧
    Decode bytesCodec scriptReader maxInt 8
        (NewDecoder [(PutUint64 4, none), ([1, 2], some (Error.other 5))]) [9]
      = some (Outcome.returned
          ⟨some (Error.wrapped (Error.other 5) "failed reading marshaled data"), [9],
            ⟨[], PutUint64 4⟩⟩) :=
  ⟨(C16_failed_read_keeps_slot bytesCodec sourceReader maxInt 8 (NewDecoder ⟨[1, 2, 3], []⟩) [9]
      ⟨[1, 2, 3, 0, 0, 0, 0, 0], 3, some Error.ErrUnexpectedEOF, ⟨[], []⟩⟩ rfl rfl).1,
    rfl, rfl, rfl, rfl⟩

/-- C17 (the decoder trusts the length), amended.  After the length is read
without error into the scratch buffer of eight bytes, from a source that
makes progress, the declared length `n` is any value below `2 ^ 64`; `Decode`
checks `n` against no maximum of its own and asks `make` for `n` bytes.  When
`n` is more than `make` allocates, the call panics.  Otherwise the payload
loop runs on a buffer of exactly `n` bytes and ends, and `Decode` returns
either the wrapped error of a failed read with the slot as it was, or what the
deserializer returns for the `n` bytes of the buffer. -/
theorem C17_trusts_length {M σ : Type} (codec : Codec M) (R : Reader σ) (maxAlloc fuel : Nat)
    (d : Decoder σ) (v : M) (st : AtLeast σ) (hR : Progresses R)
    (hbuf : d.prefixBuf.length = prefixSize)
    (hst : ReadFull R fuel d.r d.prefixBuf = some st) (herr : st.err = none) :
    ∃ n, Uint64 st.buf = some n ∧ n < 2 ^ 64 ∧
      (maxAlloc < n → Decode codec R maxAlloc fuel d v = some Outcome.panicked) ∧
      (n ≤ maxAlloc → n ≤ fuel →
        ∃ pl, payloadLoop R n fuel st.next (List.replicate n 0) 0 = some pl ∧
          pl.buf.length = n ∧
          ((∃ e, pl.err = some e ∧
              Decode codec R maxAlloc fuel d v
                = some (Outcome.returned
                    ⟨some (Error.wrapped (translateError e) "failed reading marshaled data"),
                      v, ⟨pl.next, st.buf⟩⟩)) ∨
            (pl.err = none ∧
              Decode codec R maxAlloc fuel d v
                = some (Outcome.returned
                    ⟨(codec.Unmarshal pl.buf v).1, (codec.Unmarshal pl.buf v).2,
                      ⟨pl.next, st.buf⟩⟩)))) := by
  obtain ⟨n, hn⟩ := Uint64_after_ReadFull R fuel d.r d.prefixBuf st hbuf hst
  have hn64 := Uint64_lt st.buf n hn
  refine ⟨n, hn, hn64, fun h => Decode_panics codec R maxAlloc fuel d v st n hst herr hn h, ?_⟩
  intro hmax hfn
  obtain ⟨pl, hpl, _, _, hlen⟩ := payloadLoop_progress R hR n hn64 fuel
    st.next (List.replicate n 0) 0 (Nat.zero_le _) (by omega)
  rw [List.length_replicate] at hlen
  refine ⟨pl, hpl, hlen, ?_⟩
  cases hpe : pl.err with
  | some e =>
    exact Or.inl ⟨e, rfl,
      Decode_payload_error codec R maxAlloc fuel d v st n pl e hst herr hn hmax hpl hpe⟩
  | none =>
    refine Or.inr ⟨rfl, ?_⟩
    have ht : pl.buf.take n = pl.buf := by
      rw [← hlen, List.take_length]
    simp only [Decode, hst, herr, hn, makeBytes, hmax, if_true, hpl, hpe, ht]

/-- C17, amended, at a length of three followed by three bytes. -/
theorem C17_trusts_length_witness :
    ∃ n, Uint64 (PutUint64 3) = some n ∧ n < 2 ^ 64 ∧
      (maxInt < n →
        Decode bytesCodec sourceReader maxInt 8 (NewDecoder ⟨PutUint64 3 ++ [7, 9, 4], []⟩) [9]
          = some Outcome.panicked) ∧
      (n ≤ maxInt → n ≤ 8 →
        ∃ pl, payloadLoop sourceReader n 8 (⟨[7, 9, 4], []⟩ : Source)
            (List.replicate n 0) 0 = some pl ∧
          pl.buf.length = n ∧
          ((∃ e, pl.err = some e ∧
              Decode bytesCodec sourceReader maxInt 8
                  (NewDecoder ⟨PutUint64 3 ++ [7, 9, 4], []⟩) [9]
                = some (Outcome.returned
                    ⟨some (Error.wrapped (translateError e) "failed reading marshaled data"),
                      [9], ⟨pl.next, PutUint64 3⟩⟩)) ∨
            (pl.err = none ∧
              Decode bytesCodec sourceReader maxInt 8
                  (NewDecoder ⟨PutUint64 3 ++ [7, 9, 4], []⟩) [9]
                = some (Outcome.returned
                    ⟨(bytesCodec.Unmarshal pl.buf [9]).1, (bytesCodec.Unmarshal pl.buf [9]).2,
                      ⟨pl.next, PutUint64 3⟩⟩)))) :=
  C17_trusts_length bytesCodec sourceReader maxInt 8
    (NewDecoder ⟨PutUint64 3 ++ [7, 9, 4], []⟩) [9] ⟨PutUint64 3, 8, none, ⟨[7, 9, 4], []⟩⟩
    Progresses_sourceReader rfl rfl rfl

/-- C17 as stated fails: on the stream of eight bytes `FF` (a declared length
of `2 ^ 64 - 1`) followed by one byte, `Decode` neither returns the
deserializer's result nor a read error: `make` panics, even when it
allocates every length an `int` can hold. -/
theorem C17_trusts_length_counterexample :
    Uint64 [255, 255, 255, 255, 255, 255, 255, 255] = some (2 ^ 64 - 1) ∧
    Decode bytesCodec sourceReader maxInt 8
        (NewDecoder ⟨[255, 255, 255, 255, 255, 255, 255, 255] ++ [1], []⟩) [9]
      = some Outcome.panicked :=
  ⟨by decide, rfl⟩

/-- C18 (termination of the payload loop).  On a reader that, for a non-empty
buffer, returns an error or between one byte and as many bytes as the buffer
holds, `ReadFull` ends within eight reads, the declared length `n` is read
from the buffer, and `Decode` ends (it returns or `make` panics) with fuel for
`n` iterations; the number of `Read` calls after the length was read is at
most `n`; and whenever the loop is entered with `idx < n` and the read
succeeds, the next index is again at most `n`, so that `buf[idx:n]` is within
bounds. -/
theorem C18_payload_loop_terminates {M σ : Type} (codec : Codec M) (R : Reader σ)
    (maxAlloc fuel : Nat) (s : σ) (buf : List Byte) (v : M)
    (hR : Progresses R) (hbuf : buf.length = prefixSize) (hf8 : prefixSize ≤ fuel) :
    ∃ st n, ReadFull (counting R) fuel (s, 0) buf = some st ∧ Uint64 st.buf = some n ∧
      (n ≤ fuel →
        ∃ out, Decode codec (counting R) maxAlloc fuel ⟨(s, 0), buf⟩ v = some out ∧
          ∀ res, out = Outcome.returned res → res.d.r.2 ≤ st.next.2 + n) ∧
      (∀ (t : σ) (idx : Nat), idx < n →
        (R.Read t (n - idx)).err = none →
        (idx + (R.Read t (n - idx)).data.length) % 2 ^ 64 ≤ n) := by
  obtain ⟨st, hst⟩ := ReadFull_progress (counting R) (Progresses_counting R hR) fuel (s, 0) buf
    (by rw [hbuf]; exact hf8)
  obtain ⟨n, hn⟩ := Uint64_after_ReadFull (counting R) fuel (s, 0) buf st hbuf hst
  have hn64 := Uint64_lt st.buf n hn
  refine ⟨st, n, hst, hn, ?_, ?_⟩
  · intro hfn
    cases he : st.err with
    | some e =>
      refine ⟨_, Decode_prefix_error codec (counting R) maxAlloc fuel ⟨(s, 0), buf⟩ v st e hst he,
        ?_⟩
      intro res hres
      cases hres
      exact Nat.le_add_right _ _
    | none =>
      by_cases hmax : n ≤ maxAlloc
      · obtain ⟨pl, hpl, hcount⟩ := payloadLoop_counting R hR n hn64 fuel
          st.next.1 st.next.2 (List.replicate n 0) 0 (Nat.zero_le _) (by omega)
        have hpl2 : payloadLoop (counting R) n fuel st.next (List.replicate n 0) 0 = some pl :=
          hpl
        cases hpe : pl.err with
        | some e =>
          refine ⟨_, Decode_payload_error codec (counting R) maxAlloc fuel ⟨(s, 0), buf⟩ v st n
            pl e hst he hn hmax hpl2 hpe, ?_⟩
          intro res hres
          cases hres
          simpa using hcount
        | none =>
          refine ⟨Outcome.returned
            ⟨(codec.Unmarshal (pl.buf.take n) v).1,
              (codec.Unmarshal (pl.buf.take n) v).2, ⟨pl.next, st.buf⟩⟩, ?_, ?_⟩
          · simp only [Decode, hst, he, hn, makeBytes, hmax, if_true, hpl2, hpe]
          · intro res hres
            cases hres
            simpa using hcount
      · refine ⟨Outcome.panicked,
          Decode_panics codec (counting R) maxAlloc fuel ⟨(s, 0), buf⟩ v st n hst he hn
            (by omega), ?_⟩
        intro res hres
        cases hres
  · intro t idx hidx he
    rcases hR t (n - idx) (by omega) with hbad | ⟨_, h2⟩
    · exact absurd he hbad
    · rw [Nat.mod_eq_of_lt (by omega)]
      omega

/-- C18 at a frame of three bytes delivered one byte per read. -/
theorem C18_payload_loop_terminates_witness :
    ∃ st n, ReadFull (counting sourceReader) 8
        ((⟨PutUint64 3 ++ [7, 9, 4], [1, 1, 1, 1, 1, 1, 1, 1, 1, 1, 1]⟩ : Source), 0)
        (List.replicate 8 0) = some st ∧ Uint64 st.buf = some n ∧
      (n ≤ 8 →
        ∃ out, Decode bytesCodec (counting sourceReader) maxInt 8
            ⟨((⟨PutUint64 3 ++ [7, 9, 4], [1, 1, 1, 1, 1, 1, 1, 1, 1, 1, 1]⟩ : Source), 0),
              List.replicate 8 0⟩ [9] = some out ∧
          ∀ res, out = Outcome.returned res → res.d.r.2 ≤ st.next.2 + n) ∧
      (∀ (t : Source) (idx : Nat), idx < n →
        (sourceReader.Read t (n - idx)).err = none →
        (idx + (sourceReader.Read t (n - idx)).data.length) % 2 ^ 64 ≤ n) :=
  C18_payload_loop_terminates bytesCodec sourceReader maxInt 8
    ⟨PutUint64 3 ++ [7, 9, 4], [1, 1, 1, 1, 1, 1, 1, 1, 1, 1, 1]⟩ (List.replicate 8 0) [9]
    Progresses_sourceReader rfl (by decide)

/-- C19 (bytes returned together with an error are discarded).  For a decoder
with its scratch buffer of eight bytes: when a payload read returns an error
`e`, `Decode` returns the wrap of `translateError e` and the slot as it was,
whatever bytes the read stored: the loop is left at that read for every byte
sequence the read returns with the error.  So a reader that returns the last
payload bytes together with `io.EOF` makes `Decode` return the wrapped
`io.ErrUnexpectedEOF` although the whole frame was delivered. -/
theorem C19_bytes_with_error_discarded {M σ : Type} (codec : Codec M) (R : Reader σ)
    (maxAlloc fuel : Nat) (d : Decoder σ) (v : M) (st : AtLeast σ) (n : Nat) (pl : Payload σ)
    (e : Error) (hbuf : d.prefixBuf.length = prefixSize)
    (hst : ReadFull R fuel d.r d.prefixBuf = some st) (herr : st.err = none)
    (hn : Uint64 st.buf = some n) (hmax : n ≤ maxAlloc)
    (hpl : payloadLoop R n fuel st.next (List.replicate n 0) 0 = some pl)
    (hpe : pl.err = some e) :
    st.buf.length = prefixSize ∧
    Decode codec R maxAlloc fuel d v
      = some (Outcome.returned
          ⟨some (Error.wrapped (translateError e) "failed reading marshaled data"), v,
            ⟨pl.next, st.buf⟩⟩) ∧
    (∀ (k f idx : Nat) (t t2 : σ) (buf data : List Byte), idx < k →
      R.Read t (k - idx) = ⟨data, some e, t2⟩ →
      payloadLoop R k (f + 1) t buf idx = some ⟨writeAt buf idx data, idx, some e, t2⟩) ∧
    Decode bytesCodec scriptReader maxInt 8
        (NewDecoder [(PutUint64 3, none), ([7, 9, 4], some Error.EOF)]) [9]
      = some (Outcome.returned
          ⟨some (Error.wrapped Error.ErrUnexpectedEOF "failed reading marshaled data"), [9],
            ⟨[], PutUint64 3⟩⟩) := by
  refine ⟨by rw [ReadFull_length R fuel d.r d.prefixBuf st hst, hbuf],
    Decode_payload_error codec R maxAlloc fuel d v st n pl e hst herr hn hmax hpl hpe, ?_, rfl⟩
  intro k f idx t t2 buf data hidx hread
  simp only [payloadLoop, hidx, if_true, hread]

/-- C19 at the reader that returns the three payload bytes together with
`io.EOF`. -/
theorem C19_bytes_with_error_discarded_witness :
    payloadLoop scriptReader 3 8 [([7, 9, 4], some Error.EOF)] (List.replicate 3 0) 0
      = some ⟨[7, 9, 4], 0, some Error.EOF, []⟩ ∧
    Decode bytesCodec scriptReader maxInt 8
        (NewDecoder [(PutUint64 3, none), ([7, 9, 4], some Error.EOF)]) [9]
      = some (Outcome.returned
          ⟨some (Error.wrapped (translateError Error.EOF) "failed reading marshaled data"), [9],
            ⟨[], PutUint64 3⟩⟩) :=
  ⟨rfl, (C19_bytes_with_error_discarded bytesCodec scriptReader maxInt 8
    (NewDecoder [(PutUint64 3, none), ([7, 9, 4], some Error.EOF)]) [9]
    ⟨PutUint64 3, 8, none, [([7, 9, 4], some Error.EOF)]⟩ 3
    ⟨[7, 9, 4], 0, some Error.EOF, []⟩ Error.EOF rfl rfl rfl rfl (by decide) rfl rfl).2.1⟩

/-- C20 (no payload after a failed prefix write).  For a message that marshals
to `p`, on a sink that records its writes: when the write of the length fails,
`Encode` has made that one write and no other; when the write of the length
succeeds and the write of the payload fails, `Encode` has made the two writes,
the sink is in the state the failed write left, and, on a sink that receives
the first `n` bytes of a write returning `n` and returns the full count
without an error, it holds the eight bytes of the length followed by the
bytes the failed write took. -/
theorem C20_failed_prefix_write {M τ : Type} (codec : Codec M) (W : Writer τ)
    (contents : τ → List Byte) (s : τ) (log : List (List Byte)) (m : M) (p : List Byte)
    (hgrow : ∀ t q, contents (W.Write t q).next = contents t ++ q.take (W.Write t q).n)
    (hfull : ∀ t q, (W.Write t q).err = none → (W.Write t q).n = q.length)
    (hm : codec.Marshal m = Except.ok p) :
    (∀ err, (W.Write s (PutUint64 p.length)).err = some err →
      Encode codec (recording W) ⟨(s, log)⟩ m
        = (some (Error.wrapped err "failed writing length prefix"),
            ⟨((W.Write s (PutUint64 p.length)).next, log ++ [PutUint64 p.length])⟩)) ∧
    (∀ err, (W.Write s (PutUint64 p.length)).err = none →
      (W.Write (W.Write s (PutUint64 p.length)).next p).err = some err →
      Encode codec (recording W) ⟨(s, log)⟩ m
        = (some (Error.wrapped err "failed writing marshaled data"),
            ⟨((W.Write (W.Write s (PutUint64 p.length)).next p).next,
              log ++ [PutUint64 p.length, p])⟩) ∧
      contents (W.Write s (PutUint64 p.length)).next = contents s ++ PutUint64 p.length ∧
      contents (W.Write (W.Write s (PutUint64 p.length)).next p).next
        = contents s ++ PutUint64 p.length
          ++ p.take (W.Write (W.Write s (PutUint64 p.length)).next p).n) := by
  refine ⟨?_, ?_⟩
  · intro err h1
    simp only [Encode, hm, PutUint64_mod, recording, h1, Wrap]
  · intro err h1 h2
    refine ⟨?_, ?_, ?_⟩
    · simp only [Encode, hm, PutUint64_mod, recording, h1, h2, Wrap, List.append_assoc,
        List.singleton_append]
    · rw [hgrow, hfull _ _ h1, List.take_length]
    · rw [hgrow, hgrow, hfull _ _ h1, List.take_length]

/-- C20 at the sink with room for eight bytes (the length is taken, the
payload fails and none of it is taken) and with room for three bytes (the
write of the length fails and is the only write). -/
theorem C20_failed_prefix_write_witness :
    Encode bytesCodec (recording boundedWriter) ⟨(([], 8), [])⟩ [1, 2]
      = (some (Error.wrapped (Error.other 28) "failed writing marshaled data"),
          ⟨((PutUint64 2, 0), [PutUint64 2, [1, 2]])⟩) ∧
    Encode bytesCodec (recording boundedWriter) ⟨(([], 3), [])⟩ [1, 2]
      = (some (Error.wrapped (Error.other 28) "failed writing length prefix"),
          ⟨(([0, 0, 0], 0), [PutUint64 2])⟩) :=
  ⟨((C20_failed_prefix_write bytesCodec boundedWriter (fun t => t.1) ([], 8) []
      [1, 2] [1, 2] boundedWriter_grow boundedWriter_full rfl).2 (Error.other 28) rfl rfl).1,
    (C20_failed_prefix_write bytesCodec boundedWriter (fun t => t.1) ([], 3) []
      [1, 2] [1, 2] boundedWriter_grow boundedWriter_full rfl).1 (Error.other 28) rfl⟩

end Streampb
